import Mathlib

/-!
Gobl3d: the orchestration engine of `module.go`.

A shallow embedding of the pure parts of `module.go` (line parser, argument
builder, domain extraction, recursive selector, summary builder) and of its
stateful parts (scan runner, phase coordinators) as explicit state passing.

Conventions of the embedding:

* a Go `string` is a Lean `String` read as its list of runes (`String.data`);
  ill-formed UTF-8 is outside the model;
* a Go `int` is a Lean `Int`; the only place where its width matters is
  `fmt.Sscanf`, which rejects a numeral outside the `intBits`-bit range;
* the `Timestamp` field of `ScanResult` (wall clock, read by no function
  modelled here) and the console log are left out;
* the external `gobuster` process and the file system are a parameter
  (`Tool`); the iteration order of a Go map is a parameter of the function
  that ranges over the map; so are `filepath.Join` and the tables of
  `unicode.ToLower` and `unicode.ToUpper` for runes outside ASCII;
* a file is read as the list of lines its scanner delivers;
* each phase coordinator is modelled on its own, as the sequential loop it
  is; their concurrent start in `Run` is not modelled.
-/

namespace Gobl3d

/-! ## Go standard library: `unicode`, `strings` -/

/-- Go `unicode.IsSpace`. -/
def isSpace (c : Char) : Bool :=
  c == '\t' || c == '\n' || c == '\x0b' || c == '\x0c' || c == '\r' || c == ' ' ||
  c.toNat == 0x85 || c.toNat == 0xA0 || c.toNat == 0x1680 ||
  (0x2000 ≤ c.toNat && c.toNat ≤ 0x200A) ||
  c.toNat == 0x2028 || c.toNat == 0x2029 || c.toNat == 0x202F ||
  c.toNat == 0x205F || c.toNat == 0x3000

/-- Go `strings.TrimSpace`, on the runes of the string. -/
def trimSpaceL (cs : List Char) : List Char :=
  ((cs.dropWhile isSpace).reverse.dropWhile isSpace).reverse

/-- Go `strings.TrimSpace`. -/
def TrimSpace (s : String) : String := ⟨trimSpaceL s.data⟩

/-- Go `strings.HasPrefix`, on runes. -/
def hasPrefixL : List Char → List Char → Bool
  | _, [] => true
  | [], _ :: _ => false
  | c :: cs, p :: ps => c == p && hasPrefixL cs ps

/-- Go `strings.HasPrefix`. -/
def HasPrefix (s pre : String) : Bool := hasPrefixL s.data pre.data

/-- Go `strings.Contains`, on runes: some suffix of `cs` starts with `sub`. -/
def containsL : List Char → List Char → Bool
  | [], sub => hasPrefixL [] sub
  | c :: cs, sub => hasPrefixL (c :: cs) sub || containsL cs sub

/-- Go `strings.Contains`. -/
def Contains (s sub : String) : Bool := containsL s.data sub.data

/-- Removes the literal `lit` from the front of `cs`, if it is there. -/
def stripLit : List Char → List Char → Option (List Char)
  | [], cs => some cs
  | _ :: _, [] => none
  | l :: ls, c :: cs => if c = l then stripLit ls cs else none

/-- Go `strings.TrimPrefix`. -/
def TrimPrefix (s pre : String) : String :=
  match stripLit pre.data s.data with
  | some rest => ⟨rest⟩
  | none => s

/-! ## Go standard library: `regexp`, `fmt.Sscanf` -/

/-- The class `\s` of Go regular expressions: `[\t\n\f\r ]`. -/
def isReSpace (c : Char) : Bool :=
  c == '\t' || c == '\n' || c == '\x0c' || c == '\r' || c == ' '

/-- The class `\d` of Go regular expressions: `[0-9]`. -/
def isReDigit (c : Char) : Bool := '0' ≤ c && c ≤ '9'

/-- The piece `\s+` when what follows it in the pattern starts with a
character that is not white space: it can only end at the end of the run. -/
def reSpaces1 : List Char → Option (List Char)
  | [] => none
  | c :: cs => if isReSpace c then some (cs.dropWhile isReSpace) else none

/-- The piece `(\d+)` when what follows it in the pattern starts with a
character that is not a digit: the group is the whole run of digits. -/
def reDigits1 : List Char → Option (List Char × List Char)
  | [] => none
  | c :: cs =>
    if isReDigit c then some (c :: cs.takeWhile isReDigit, cs.dropWhile isReDigit) else none

/-- A field of the pattern, `\s+` `op` `\s+(\d+)` `cl`, matched at the front
of `cs`: the group and the text left after the field. -/
def matchField (op cl cs : List Char) : Option (List Char × List Char) := do
  let cs ← reSpaces1 cs
  let cs ← stripLit op cs
  let cs ← reSpaces1 cs
  let (g, cs) ← reDigits1 cs
  let cs ← stripLit cl cs
  pure (g, cs)

/-- The pattern after its first group,
`\s+\(Status:\s+(\d+)\)\s+\[Size:\s+(\d+)\]`, matched at the front of `cs`:
the two groups and the text left after the match. -/
def matchTail (cs : List Char) : Option (List Char × List Char × List Char) := do
  let (g2, cs) ← matchField "(Status:".toList ")".toList cs
  let (g3, cs) ← matchField "[Size:".toList "]".toList cs
  pure (g2, g3, cs)

/-- The anchored lazy group `^(.+?)` followed by the rest of the pattern:
the group grows one character at a time (`.` is any character but a line
feed) and stops at the first length after which the rest matches. `acc` is
the group so far. -/
def lazyGroup (acc : List Char) : List Char → Option (List Char × List Char × List Char × List Char)
  | [] => none
  | c :: cs =>
    if c = '\n' then none
    else
      match matchTail cs with
      | some (g2, g3, rest) => some (acc ++ [c], g2, g3, rest)
      | none => lazyGroup (acc ++ [c]) cs

/-- Go `re.FindStringSubmatch(line)` for
`^(.+?)\s+\(Status:\s+(\d+)\)\s+\[Size:\s+(\d+)\]`: the empty slice when
there is no match, else the whole match and the three groups. -/
def FindStringSubmatch (line : String) : List String :=
  match lazyGroup [] line.data with
  | none => []
  | some (g1, g2, g3, rest) =>
    [⟨line.data.take (line.data.length - rest.length)⟩, ⟨g1⟩, ⟨g2⟩, ⟨g3⟩]

/-- Width of the Go `int` the scanned numbers are stored in. -/
def intBits : Nat := 64

/-- Value of a run of decimal digits, most significant first; `none` when a
character is not a digit (Go `strconv.ParseUint` in base 10). -/
def parseDigits (acc : Nat) : List Char → Option Nat
  | [] => some acc
  | c :: cs => if isReDigit c then parseDigits (10 * acc + (c.toNat - '0'.toNat)) cs else none

/-- The token `%d` reads: leading blanks skipped (a line feed there is an
error), an optional sign, then the longest run of `0123456789_`. -/
def scanToken (cs : List Char) : Option (Bool × List Char) :=
  let cs := cs.dropWhile (fun c => isSpace c && c != '\n')
  match cs with
  | [] => none
  | c :: rest =>
    let neg := c == '-'
    let body := if c == '-' || c == '+' then rest else c :: rest
    let tok := body.takeWhile (fun d => isReDigit d || d == '_')
    if tok.isEmpty then none else some (neg, tok)

/-- Go `fmt.Sscanf(str, "%d", &n)`: the integer stored in `n`, or `none`
when the scan fails and `n` keeps its value (no integer at the front, or
a value outside the range of `int`). -/
def Sscanf_d (str : String) : Option Int :=
  match scanToken str.data with
  | none => none
  | some (neg, tok) =>
    match parseDigits 0 tok with
    | none => none
    | some v =>
      if neg then (if v ≤ 2 ^ (intBits - 1) then some (-(v : Int)) else none)
      else (if v < 2 ^ (intBits - 1) then some (v : Int) else none)

/-! ## Data model -/

/-- Go `Config`. -/
structure Config where
  Target : String
  Wordlists : List String
  Extensions : List String
  Threads : Int
  Delay : String
  Timeout : String
  OutputDir : String
  SkipSSL : Bool
  FollowRedir : Bool
  UserAgent : String
  Proxy : String
  Cookies : String
  Headers : List String
  StatusCodes : List String
  ExcludeCodes : List String

/-- Go `ScanResult` (without `Timestamp`). -/
structure ScanResult where
  URL : String
  StatusCode : Int
  Size : Int
  ScanType : String
deriving DecidableEq

/-! ## Line parser -/

/-- Go `parseGobusterLine`: `none` is the nil result. -/
def parseGobusterLine (line scanType : String) : Option ScanResult :=
  let ms := FindStringSubmatch line
  if ms.length ≥ 3 then
    let url := TrimSpace (ms.getD 1 "")
    let statusCode := (Sscanf_d (ms.getD 2 "")).getD 0
    let size := if ms.length ≥ 4 then (Sscanf_d (ms.getD 3 "")).getD 0 else 0
    some { URL := url, StatusCode := statusCode, Size := size, ScanType := scanType }
  else none

/-- One turn of the loop of Go `parseResults` on the scanner's text `text`:
the result store after the turn. -/
def parseResultsLine (scanType : String) (results : List ScanResult) (text : String) :
    List ScanResult :=
  let line := TrimSpace text
  if line = "" ∨ HasPrefix line "=" then results
  else if Contains line "(Status:" then
    match parseGobusterLine line scanType with
    | some result => results ++ [result]
    | none => results
  else results

/-- Go `parseResults` once the file is open: the loop over the lines the
scanner delivers. -/
def parseResultsLines (scanType : String) (results : List ScanResult) (lines : List String) :
    List ScanResult :=
  lines.foldl (parseResultsLine scanType) results


/-! ## Argument construction -/

/-- Go `fmt.Sprintf("%d", n)`. -/
def fmtInt (n : Int) : String := toString n

/-- Go `strings.Join`. -/
def Join (elems : List String) (sep : String) : String := sep.intercalate elems

/-- Go `buildBaseArgs`. -/
def buildBaseArgs (config : Config) : List String :=
  let args : List String := []
  let args := if config.Threads > 0 then args ++ ["-t", fmtInt config.Threads] else args
  let args := if config.Delay ≠ "" then args ++ ["--delay", config.Delay] else args
  let args := if config.Timeout ≠ "" then args ++ ["--timeout", config.Timeout] else args
  let args := if config.SkipSSL then args ++ ["-k"] else args
  let args := if config.FollowRedir then args ++ ["-r"] else args
  let args := if config.UserAgent ≠ "" then args ++ ["-a", config.UserAgent] else args
  let args := if config.Proxy ≠ "" then args ++ ["--proxy", config.Proxy] else args
  let args := if config.Cookies ≠ "" then args ++ ["-c", config.Cookies] else args
  let args := config.Headers.foldl (fun args header => args ++ ["-H", header]) args
  let args :=
    if config.StatusCodes.length > 0 then args ++ ["-s", Join config.StatusCodes ","] else args
  let args :=
    if config.ExcludeCodes.length > 0 then args ++ ["-b", Join config.ExcludeCodes ","] else args
  args

/-! ## Domain extraction -/

/-- Go `strings.Split(s, sep)` for a separator of one character, on runes. -/
def splitL (sep : Char) : List Char → List (List Char)
  | [] => [[]]
  | c :: cs =>
    if c = sep then [] :: splitL sep cs
    else
      match splitL sep cs with
      | [] => [[c]]
      | h :: t => (c :: h) :: t

/-- Go `strings.Split(s, sep)` for a separator of one character. -/
def Split (s : String) (sep : Char) : List String := (splitL sep s.data).map String.mk

/-- Go `extractDomain`. -/
def extractDomain (target : String) : String :=
  let target := TrimPrefix target "http://"
  let target := TrimPrefix target "https://"
  let parts := Split target '/'
  let domain := parts.headD ""
  if Contains domain ":" then (Split domain ':').headD "" else domain

/-! ## Scan runner and phase coordinators -/

/-- Go `UltimateGobuster`: the orchestrator (without its mutex). -/
structure UltimateGobuster where
  config : Config
  results : List ScanResult
  outputDir : String

/-- What one run of the external tool leaves behind: the error of
`cmd.Run()` (`none` for a clean exit) and the file system, as the lines a
scanner reads from a path (`none` when the path cannot be opened). -/
structure Outcome where
  err : Option String
  files : String → Option (List String)

/-- The external tool: the outcome of the child process started after
`n` earlier ones with the given arguments. -/
abbrev Tool := Nat → List String → Outcome

/-- The processes started so far, by their argument lists. -/
structure World where
  calls : List (List String)

/-- Go `parseResults`. -/
def parseResults (files : String → Option (List String)) (ug : UltimateGobuster)
    (filename scanType : String) : UltimateGobuster :=
  match files filename with
  | none => ug
  | some lines => { ug with results := parseResultsLines scanType ug.results lines }

/-- Go `runGobusterCommand`: the returned error, the orchestrator and the
world after the call. -/
def runGobusterCommand (tool : Tool) (ug : UltimateGobuster) (w : World)
    (args : List String) (outputFile scanType : String) :
    Option String × UltimateGobuster × World :=
  let out := tool w.calls.length args
  let w := { w with calls := w.calls ++ [args] }
  match out.err with
  | some e => (some ("gobuster command failed: " ++ e), ug, w)
  | none =>
    let ug := if outputFile ≠ "" then parseResults out.files ug outputFile scanType else ug
    (none, ug, w)

/-- The loop `for i, wordlist := range ug.config.Wordlists` shared by the
three coordinators: `invocation i wordlist` is the argument list and output
file built in the body; an error of the run is logged and the loop goes on. -/
def wordlistLoop (tool : Tool) (invocation : Nat → String → List String × String)
    (scanType : String) : Nat → List String → UltimateGobuster → World → UltimateGobuster × World
  | _, [], ug, w => (ug, w)
  | i, wordlist :: rest, ug, w =>
    let (args, outputFile) := invocation i wordlist
    match runGobusterCommand tool ug w args outputFile scanType with
    | (some _, ug, w) => wordlistLoop tool invocation scanType (i + 1) rest ug w
    | (none, ug, w) => wordlistLoop tool invocation scanType (i + 1) rest ug w

/-- Body of the loop of Go `runDirectoryEnum`; `join` is `filepath.Join`. -/
def directoryInvocation (join : String → String → String) (ug : UltimateGobuster)
    (i : Nat) (wordlist : String) : List String × String :=
  let outputFile := join ug.outputDir ("directories_" ++ fmtInt (i + 1) ++ ".txt")
  let args := ["dir"]
  let args := args ++ buildBaseArgs ug.config
  let args := args ++ ["-u", ug.config.Target]
  let args := args ++ ["-w", wordlist]
  let args := args ++ ["-o", outputFile]
  let args :=
    if ug.config.Extensions.length > 0 then args ++ ["-x", Join ug.config.Extensions ","]
    else args
  (args, outputFile)

/-- Go `runDirectoryEnum`. -/
def runDirectoryEnum (join : String → String → String) (tool : Tool) (ug : UltimateGobuster)
    (w : World) : Option String × UltimateGobuster × World :=
  let (ug, w) :=
    wordlistLoop tool (directoryInvocation join ug) "directory" 0 ug.config.Wordlists ug w
  (none, ug, w)

/-- Body of the loop of Go `runSubdomainEnum`. -/
def subdomainInvocation (join : String → String → String) (ug : UltimateGobuster)
    (domain : String) (i : Nat) (wordlist : String) : List String × String :=
  let outputFile := join ug.outputDir ("subdomains_" ++ fmtInt (i + 1) ++ ".txt")
  let args := ["dns"]
  let args := args ++ buildBaseArgs ug.config
  let args := args ++ ["-d", domain]
  let args := args ++ ["-w", wordlist]
  let args := args ++ ["-o", outputFile]
  (args, outputFile)

/-- Go `runSubdomainEnum`. -/
def runSubdomainEnum (join : String → String → String) (tool : Tool) (ug : UltimateGobuster)
    (w : World) : Option String × UltimateGobuster × World :=
  let domain := extractDomain ug.config.Target
  if domain = "" then
    (some ("could not extract domain from target: " ++ ug.config.Target), ug, w)
  else
    let (ug, w) :=
      wordlistLoop tool (subdomainInvocation join ug domain) "subdomain" 0 ug.config.Wordlists ug w
    (none, ug, w)

/-- Body of the loop of Go `runVHostEnum`. -/
def vhostInvocation (join : String → String → String) (ug : UltimateGobuster)
    (i : Nat) (wordlist : String) : List String × String :=
  let outputFile := join ug.outputDir ("vhosts_" ++ fmtInt (i + 1) ++ ".txt")
  let args := ["vhost"]
  let args := args ++ buildBaseArgs ug.config
  let args := args ++ ["-u", ug.config.Target]
  let args := args ++ ["-w", wordlist]
  let args := args ++ ["-o", outputFile]
  (args, outputFile)

/-- Go `runVHostEnum`. -/
def runVHostEnum (join : String → String → String) (tool : Tool) (ug : UltimateGobuster)
    (w : World) : Option String × UltimateGobuster × World :=
  let (ug, w) := wordlistLoop tool (vhostInvocation join ug) "vhost" 0 ug.config.Wordlists ug w
  (none, ug, w)

/-! ## Recursive selector -/

/-- Go `strings.ToLower`: ASCII letters by the fast path, every other rune
by `unicode.ToLower`, whose table is the parameter `unicodeLower`. -/
def ToLower (unicodeLower : Char → Char) (s : String) : String :=
  ⟨s.data.map (fun c => if c.toNat < 128 then c.toLower else unicodeLower c)⟩

/-- The keywords of Go `getInterestingDirectories`. -/
def interestingKeywords : List String :=
  ["admin", "api", "backup", "config", "login", "panel", "upload", "files", "docs"]

/-- The inner loop of Go `getInterestingDirectories` over the keywords: the
URL is appended at the first keyword it contains, and the loop breaks. -/
def keywordLoop (unicodeLower : Char → Char) (result : ScanResult) :
    List String → List String → List String
  | [], interesting => interesting
  | keyword :: rest, interesting =>
    if Contains (ToLower unicodeLower result.URL) keyword then interesting ++ [result.URL]
    else keywordLoop unicodeLower result rest interesting

/-- Go `getInterestingDirectories`. -/
def getInterestingDirectories (unicodeLower : Char → Char) (ug : UltimateGobuster) :
    List String :=
  ug.results.foldl
    (fun interesting result =>
      if result.ScanType = "directory" ∧ result.StatusCode = 200 then
        keywordLoop unicodeLower result interestingKeywords interesting
      else interesting)
    []

/-! ## Report synthesizer -/

/-- Go `strings.ToUpper`, with the table of `unicode.ToUpper` as parameter. -/
def ToUpper (unicodeUpper : Char → Char) (s : String) : String :=
  ⟨s.data.map (fun c => if c.toNat < 128 then c.toUpper else unicodeUpper c)⟩

/-- A Go `map[string][]ScanResult`: its entries, each key once. -/
abbrev ScanTypeMap := List (String × List ScanResult)

/-- Reading `m[k]`: the zero value (nil) for a missing key. -/
def mapGet (m : ScanTypeMap) (k : String) : List ScanResult :=
  match m.find? (fun e => e.1 = k) with
  | some e => e.2
  | none => []

/-- The assignment `m[k] = v`. -/
def mapSet (m : ScanTypeMap) (k : String) (v : List ScanResult) : ScanTypeMap :=
  if m.any (fun e => e.1 = k) then m.map (fun e => if e.1 = k then (k, v) else e)
  else m ++ [(k, v)]

/-- The grouping loop of Go `generateSummary`:
`scanTypes[result.ScanType] = append(scanTypes[result.ScanType], result)`. -/
def groupByScanType (results : List ScanResult) : ScanTypeMap :=
  results.foldl (fun m result => mapSet m result.ScanType (mapGet m result.ScanType ++ [result])) []

/-- The orders in which `range` may visit the map built from `results`: Go
leaves the order open, each key is visited once. -/
def IsRangeOrder (order : List String) (results : List ScanResult) : Prop :=
  order.Perm ((groupByScanType results).map Prod.fst)

/-- Body of the loop `for scanType, results := range scanTypes` of Go
`generateSummary`: the text written for one entry. -/
def writeSection (unicodeUpper : Char → Char) (scanType : String) (results : List ScanResult) :
    String :=
  let summary := "=== " ++ ToUpper unicodeUpper scanType ++ " RESULTS (" ++
    fmtInt results.length ++ ") ===\n"
  let summary := results.foldl
    (fun summary result =>
      summary ++ ("  " ++ result.URL ++ " (Status: " ++ fmtInt result.StatusCode ++ ", Size: " ++
        fmtInt result.Size ++ ")\n"))
    summary
  summary ++ "\n"

/-- Go `generateSummary`; `now` is the formatted `time.Now()` and `order`
the order in which `range` visits the keys of the map. -/
def generateSummary (unicodeUpper : Char → Char) (ug : UltimateGobuster) (now : String)
    (order : List String) : String :=
  let summary := ""
  let summary := summary ++ "=== ULTIMATE GOBUSTER SCAN SUMMARY ===\n\n"
  let summary := summary ++ ("Target: " ++ ug.config.Target ++ "\n")
  let summary := summary ++ ("Scan Date: " ++ now ++ "\n")
  let summary := summary ++ ("Total Results: " ++ fmtInt ug.results.length ++ "\n\n")
  let scanTypes := groupByScanType ug.results
  order.foldl
    (fun summary scanType =>
      summary ++ writeSection unicodeUpper scanType (mapGet scanTypes scanType))
    summary

/-! ## Notions of the specification -/

/-- The number a decimal numeral writes: its digits, least significant
first, read in base ten. -/
def decimalValue (s : String) : Nat :=
  Nat.ofDigits 10 (s.data.reverse.map (fun c => c.toNat - '0'.toNat))

/-- The text after the path of a result line: the two fields, with their
white space, and whatever follows. -/
def shapeTail (w1 w2 s w3 w4 z rest : List Char) : List Char :=
  w1 ++ "(Status:".toList ++ w2 ++ s ++ ")".toList ++
    (w3 ++ "[Size:".toList ++ w4 ++ z ++ "]".toList ++ rest)

/-- The line starts with the shape `<path> (Status: <digits>) [Size: <digits>]`:
a non-empty path within the line (no line feed), then the two fields, each
blank of the shape being a non-empty run of white space and each numeral a
non-empty run of digits. -/
def StartsWithShape (line : String) : Prop :=
  ∃ path w1 w2 s w3 w4 z rest : List Char,
    line.data = path ++ shapeTail w1 w2 s w3 w4 z rest ∧
    path ≠ [] ∧ (∀ c ∈ path, c ≠ '\n') ∧
    (w1 ≠ [] ∧ ∀ c ∈ w1, isReSpace c = true) ∧ (w2 ≠ [] ∧ ∀ c ∈ w2, isReSpace c = true) ∧
    (w3 ≠ [] ∧ ∀ c ∈ w3, isReSpace c = true) ∧ (w4 ≠ [] ∧ ∀ c ∈ w4, isReSpace c = true) ∧
    (s ≠ [] ∧ ∀ c ∈ s, isReDigit c = true) ∧ (z ≠ [] ∧ ∀ c ∈ z, isReDigit c = true)

/-- The argument list as the specification words it: each flag present if
and only if its field is non-zero or non-empty, in the fixed order. -/
def baseArgsAsSpecified (config : Config) : List String :=
  (if config.Threads ≠ 0 then ["-t", fmtInt config.Threads] else []) ++
  (if config.Delay ≠ "" then ["--delay", config.Delay] else []) ++
  (if config.Timeout ≠ "" then ["--timeout", config.Timeout] else []) ++
  (if config.SkipSSL = true then ["-k"] else []) ++
  (if config.FollowRedir = true then ["-r"] else []) ++
  (if config.UserAgent ≠ "" then ["-a", config.UserAgent] else []) ++
  (if config.Proxy ≠ "" then ["--proxy", config.Proxy] else []) ++
  (if config.Cookies ≠ "" then ["-c", config.Cookies] else []) ++
  (config.Headers.map (fun header => ["-H", header])).flatten ++
  (if config.StatusCodes ≠ [] then ["-s", Join config.StatusCodes ","] else []) ++
  (if config.ExcludeCodes ≠ [] then ["-b", Join config.ExcludeCodes ","] else [])

/-- A finding the specification calls interesting: tagged `directory`,
status exactly 200, and a keyword of the fixed set inside its lowercased
URL. -/
def IsInteresting (unicodeLower : Char → Char) (r : ScanResult) : Prop :=
  r.ScanType = "directory" ∧ r.StatusCode = 200 ∧
    ∃ k ∈ interestingKeywords, Contains (ToLower unicodeLower r.URL) k = true

instance (unicodeLower : Char → Char) (r : ScanResult) :
    Decidable (IsInteresting unicodeLower r) := by
  unfold IsInteresting
  infer_instance

/-- What may follow the host in a target: nothing, a path, or a port. -/
def AfterHost (X : List Char) : Prop :=
  X = [] ∨ (∃ r, X = '/' :: r) ∨ (∃ q r, X = ':' :: q :: r ∧ q ≠ '/')

/-- The findings one invocation of a phase adds to the store: those parsed
from its output file when the tool exits cleanly and the file can be read,
none otherwise. `k` is the number of processes started before it. -/
def foundBy (tool : Tool) (scanType : String) (k : Nat) (inv : List String × String) :
    List ScanResult :=
  match (tool k inv.1).err with
  | some _ => []
  | none =>
    match (tool k inv.1).files inv.2 with
    | none => []
    | some lines => parseResultsLines scanType [] lines

/-- A phase over the configured wordlists as the specification describes
it, from the orchestrator `ug` and the world `w` to the result `res`: no
error is returned; one process is started per wordlist, in list order, the
one for the wordlist of index `i` with the arguments `invocation i`; the
findings of every invocation that exits cleanly are in the store, which
keeps what it held. -/
def PhaseCompletes (tool : Tool) (scanType : String)
    (invocation : Nat → String → List String × String) (ug : UltimateGobuster) (w : World)
    (res : Option String × UltimateGobuster × World) : Prop :=
  res.1 = none ∧
  res.2.2.calls = w.calls ++ ug.config.Wordlists.enum.map (fun p => (invocation p.1 p.2).1) ∧
  (∃ added, res.2.1.results = ug.results ++ added) ∧
  ∀ p ∈ ug.config.Wordlists.enum,
    (tool (w.calls.length + p.1) (invocation p.1 p.2).1).err = none →
    ∀ lines, (tool (w.calls.length + p.1) (invocation p.1 p.2).1).files (invocation p.1 p.2).2
        = some lines →
      ∀ f ∈ parseResultsLines scanType [] lines, f ∈ res.2.1.results

/-- The scan-type tags of a store in the order in which they first occur. -/
def firstOccurrences : List String → List String
  | [] => []
  | t :: ts => t :: (firstOccurrences ts).filter (fun u => u ≠ t)

/-- The findings of the store with the tag `t`, in store order. -/
def findingsOf (results : List ScanResult) (t : String) : List ScanResult :=
  results.filter (fun r => r.ScanType = t)

/-- Concatenation of the texts of a list, in list order. -/
def concatAll (texts : List String) : String := texts.foldr (fun t acc => t ++ acc) ""

/-- The line `<url> (Status: <code>, Size: <size>)` of a finding. -/
def findingLine (r : ScanResult) : String :=
  "  " ++ r.URL ++ " (Status: " ++ toString r.StatusCode ++ ", Size: " ++ toString r.Size ++ ")\n"

/-- The section of the summary for the tag `t` listing the findings `fs`:
its title with their number, their lines, and an empty line. -/
def sectionText (unicodeUpper : Char → Char) (t : String) (fs : List ScanResult) : String :=
  "=== " ++ ToUpper unicodeUpper t ++ " RESULTS (" ++ toString fs.length ++ ") ===\n" ++
    concatAll (fs.map findingLine) ++ "\n"

/-- The header of the summary: title, target, date and total count. -/
def headerText (target now : String) (total : Nat) : String :=
  "=== ULTIMATE GOBUSTER SCAN SUMMARY ===\n\n" ++ "Target: " ++ target ++ "\n" ++
    "Scan Date: " ++ now ++ "\n" ++ "Total Results: " ++ toString total ++ "\n\n"

/-! ## Lemmas on the line parser -/

theorem isSpace_of_isReSpace {c : Char} (h : isReSpace c = true) : isSpace c = true := by
  simp only [isReSpace, Bool.or_eq_true, beq_iff_eq] at h
  rcases h with (((h | h) | h) | h) | h <;> subst h <;> decide

theorem isReSpace_false_of_isSpace_false {c : Char} (h : isSpace c = false) :
    isReSpace c = false := by
  cases hc : isReSpace c
  · rfl
  · rw [isSpace_of_isReSpace hc] at h; cases h

theorem isSpace_false_of_isReDigit {c : Char} (h : isReDigit c = true) : isSpace c = false := by
  simp only [isReDigit, Bool.and_eq_true, decide_eq_true_eq] at h
  have h1 : 48 ≤ c.toNat := h.1
  have h2 : c.toNat ≤ 57 := h.2
  have e : ∀ d : Char, (c == d) = false ∨ c.toNat = d.toNat := by
    intro d
    by_cases hd : c = d
    · right; rw [hd]
    · left; simpa using hd
  simp only [isSpace, Bool.or_eq_false_iff, Bool.and_eq_false_iff]
  have ne : ∀ d : Char, d.toNat < 48 → (c == d) = false := by
    intro d hd
    rcases e d with h | h
    · exact h
    · omega
  refine ⟨⟨⟨⟨⟨⟨⟨⟨⟨⟨⟨⟨⟨⟨?_, ?_⟩, ?_⟩, ?_⟩, ?_⟩, ?_⟩, ?_⟩, ?_⟩, ?_⟩, ?_⟩, ?_⟩, ?_⟩, ?_⟩, ?_⟩, ?_⟩
  all_goals first
    | exact ne _ (by decide)
    | (simp only [beq_eq_false_iff_ne, ne_eq]; omega)
    | (left; simp only [decide_eq_false_iff_not]; omega)

theorem dropWhile_append_all {α : Type} (p : α → Bool) (w cs : List α)
    (hw : ∀ c ∈ w, p c = true) : (w ++ cs).dropWhile p = cs.dropWhile p := by
  induction w with
  | nil => rfl
  | cons a w ih =>
    have ha : p a = true := hw a (List.mem_cons_self a w)
    simp only [List.cons_append, List.dropWhile_cons, ha, if_true]
    exact ih (fun c hc => hw c (List.mem_cons_of_mem a hc))

theorem takeWhile_append_all {α : Type} (p : α → Bool) (w cs : List α)
    (hw : ∀ c ∈ w, p c = true) : (w ++ cs).takeWhile p = w ++ cs.takeWhile p := by
  induction w with
  | nil => rfl
  | cons a w ih =>
    have ha : p a = true := hw a (List.mem_cons_self a w)
    simp only [List.cons_append, List.takeWhile_cons, ha, if_true]
    rw [ih (fun c hc => hw c (List.mem_cons_of_mem a hc))]

theorem reSpaces1_run (w : List Char) (d : Char) (cs : List Char) (hne : w ≠ [])
    (hw : ∀ c ∈ w, isReSpace c = true) (hd : isReSpace d = false) :
    reSpaces1 (w ++ d :: cs) = some (d :: cs) := by
  cases w with
  | nil => exact absurd rfl hne
  | cons a w =>
    have ha : isReSpace a = true := hw a (List.mem_cons_self a w)
    simp only [List.cons_append, reSpaces1, ha, if_true]
    rw [dropWhile_append_all _ _ _ (fun c hc => hw c (List.mem_cons_of_mem a hc))]
    simp [List.dropWhile_cons, hd]

theorem reSpaces1_head_false (c : Char) (cs : List Char) (hc : isReSpace c = false) :
    reSpaces1 (c :: cs) = none := by
  simp [reSpaces1, hc]

theorem stripLit_append (lit cs : List Char) : stripLit lit (lit ++ cs) = some cs := by
  induction lit with
  | nil => cases cs <;> rfl
  | cons l ls ih => simp [stripLit, ih]

theorem reDigits1_run (s : List Char) (d : Char) (cs : List Char) (hne : s ≠ [])
    (hs : ∀ c ∈ s, isReDigit c = true) (hd : isReDigit d = false) :
    reDigits1 (s ++ d :: cs) = some (s, d :: cs) := by
  cases s with
  | nil => exact absurd rfl hne
  | cons a s =>
    have ha : isReDigit a = true := hs a (List.mem_cons_self a s)
    have hs' : ∀ c ∈ s, isReDigit c = true := fun c hc => hs c (List.mem_cons_of_mem a hc)
    simp only [List.cons_append, reDigits1, ha, if_true]
    rw [dropWhile_append_all _ _ _ hs', takeWhile_append_all _ _ _ hs']
    simp [List.dropWhile_cons, List.takeWhile_cons, hd]

/-- A well-formed field is matched, whatever follows it. -/
theorem matchField_good (o : Char) (op : List Char) (k : Char) (cl : List Char)
    (w1 w2 s rest : List Char)
    (ho : isReSpace o = false) (hk : isReDigit k = false)
    (h1 : w1 ≠ []) (hw1 : ∀ c ∈ w1, isReSpace c = true)
    (h2 : w2 ≠ []) (hw2 : ∀ c ∈ w2, isReSpace c = true)
    (hs : s ≠ []) (hsd : ∀ c ∈ s, isReDigit c = true) :
    matchField (o :: op) (k :: cl) (w1 ++ (o :: op) ++ w2 ++ s ++ (k :: cl) ++ rest)
      = some (s, rest) := by
  have hs0 : isReSpace (s.head hs) = false :=
    isReSpace_false_of_isSpace_false (isSpace_false_of_isReDigit (hsd _ (List.head_mem hs)))
  obtain ⟨a, s', rfl⟩ := List.exists_cons_of_ne_nil hs
  simp only [List.head_cons] at hs0
  have e1 : w1 ++ (o :: op) ++ w2 ++ (a :: s') ++ (k :: cl) ++ rest
      = w1 ++ o :: (op ++ w2 ++ (a :: s') ++ (k :: cl) ++ rest) := by simp
  have e2 : op ++ w2 ++ (a :: s') ++ (k :: cl) ++ rest
      = op ++ (w2 ++ a :: (s' ++ (k :: cl) ++ rest)) := by simp
  have e3 : a :: (s' ++ (k :: cl) ++ rest) = (a :: s') ++ k :: (cl ++ rest) := by simp
  have e4 : k :: (cl ++ rest) = (k :: cl) ++ rest := by simp
  simp only [matchField, bind, Option.bind]
  rw [e1, reSpaces1_run w1 o _ h1 hw1 ho]
  simp only []
  rw [e2, ← List.cons_append, stripLit_append]
  simp only []
  rw [reSpaces1_run w2 a _ h2 hw2 hs0]
  simp only []
  rw [e3, reDigits1_run (a :: s') k _ hs hsd hk]
  simp only []
  rw [e4, stripLit_append]
  rfl

theorem matchTail_good (w1 w2 s w3 w4 z rest : List Char)
    (h1 : w1 ≠ []) (hw1 : ∀ c ∈ w1, isReSpace c = true)
    (h2 : w2 ≠ []) (hw2 : ∀ c ∈ w2, isReSpace c = true)
    (h3 : w3 ≠ []) (hw3 : ∀ c ∈ w3, isReSpace c = true)
    (h4 : w4 ≠ []) (hw4 : ∀ c ∈ w4, isReSpace c = true)
    (hs : s ≠ []) (hsd : ∀ c ∈ s, isReDigit c = true)
    (hz : z ≠ []) (hzd : ∀ c ∈ z, isReDigit c = true) :
    matchTail (shapeTail w1 w2 s w3 w4 z rest) = some (s, z, rest) := by
  have f1 : matchField "(Status:".toList ")".toList
      (w1 ++ "(Status:".toList ++ w2 ++ s ++ ")".toList ++
        (w3 ++ "[Size:".toList ++ w4 ++ z ++ "]".toList ++ rest))
      = some (s, w3 ++ "[Size:".toList ++ w4 ++ z ++ "]".toList ++ rest) :=
    matchField_good '(' "Status:".toList ')' [] w1 w2 s _ (by decide) (by decide)
      h1 hw1 h2 hw2 hs hsd
  have f2 : matchField "[Size:".toList "]".toList
      (w3 ++ "[Size:".toList ++ w4 ++ z ++ "]".toList ++ rest) = some (z, rest) :=
    matchField_good '[' "Size:".toList ']' [] w3 w4 z rest (by decide) (by decide)
      h3 hw3 h4 hw4 hz hzd
  unfold matchTail shapeTail
  rw [f1]
  simp only [bind, Option.bind]
  rw [f2]
  rfl

theorem matchTail_none_of_matchField {cs : List Char}
    (h : matchField "(Status:".toList ")".toList cs = none) : matchTail cs = none := by
  unfold matchTail
  rw [h]
  rfl

/-- After `\s+` on blanks followed by a character that is not white space for
the pattern, what is left starts with blanks of the text and that character. -/
theorem reSpaces1_shape (l : List Char) (d : Char) (Y r : List Char)
    (hl : ∀ c ∈ l, isSpace c = true) (hd : isReSpace d = false)
    (h : reSpaces1 (l ++ d :: Y) = some r) :
    ∃ l2, (∀ c ∈ l2, isSpace c = true) ∧ r = l2 ++ d :: Y := by
  cases l with
  | nil => simp [reSpaces1, hd] at h
  | cons a l =>
    simp only [List.cons_append, reSpaces1] at h
    split at h
    · injection h with h
      refine ⟨l.dropWhile isReSpace, ?_, ?_⟩
      · intro c hc
        exact hl c (List.mem_cons_of_mem a ((List.dropWhile_sublist _).subset hc))
      · rw [← h]
        clear h hl
        induction l with
        | nil => simp [List.dropWhile_cons, hd]
        | cons b l ih =>
          by_cases hb : isReSpace b = true
          · simp [List.dropWhile_cons, hb, ih]
          · simp [List.dropWhile_cons, hb]
    · cases h

theorem stripLit_cons_ne (o : Char) (op : List Char) (c : Char) (cs : List Char) (h : c ≠ o) :
    stripLit (o :: op) (c :: cs) = none := by
  simp [stripLit, h]

/-- A literal free of blanks found at the front of `p ++ W`, where `p` is
free of blanks and `W` starts with one, lies inside `p`. -/
theorem stripLit_prefix_split (op : List Char) (hop : ∀ c ∈ op, isSpace c = false)
    (W : List Char) (hW : ∃ c cs, W = c :: cs ∧ isSpace c = true) :
    ∀ (p r : List Char), stripLit op (p ++ W) = some r → ∃ q, p = op ++ q ∧ r = q ++ W := by
  induction op with
  | nil =>
    intro p r h
    have : stripLit [] (p ++ W) = some (p ++ W) := by cases (p ++ W) <;> rfl
    rw [this] at h
    injection h with h
    exact ⟨p, rfl, h.symm⟩
  | cons o os ih =>
    intro p r h
    have ho : isSpace o = false := hop o (List.mem_cons_self o os)
    cases p with
    | nil =>
      obtain ⟨c, cs, rfl, hc⟩ := hW
      have : c ≠ o := by
        intro e; rw [e, ho] at hc; cases hc
      simp [stripLit, this] at h
    | cons a p =>
      simp only [List.cons_append, stripLit] at h
      split at h
      · rename_i hao
        obtain ⟨q, hq, hr⟩ := ih (fun c hc => hop c (List.mem_cons_of_mem o hc)) p r h
        exact ⟨q, by rw [hao, hq]; rfl, hr⟩
      · cases h

/-- No field starts inside leading blanks followed by a path: the only
candidate is a path equal to the opening literal, and after it no digit
follows. -/
theorem matchField_lead_none (o : Char) (op cl : List Char)
    (hop : ∀ c ∈ o :: op, isSpace c = false)
    (l p W : List Char) (hl : ∀ c ∈ l, isSpace c = true)
    (hp : p ≠ []) (hps : ∀ c ∈ p, isSpace c = false)
    (hW1 : ∃ c cs, W = c :: cs ∧ isSpace c = true)
    (hW2 : ∀ r, reSpaces1 W = some r → reDigits1 r = none) :
    matchField (o :: op) cl (l ++ p ++ W) = none := by
  obtain ⟨a, p', rfl⟩ := List.exists_cons_of_ne_nil hp
  have ha : isSpace a = false := hps a (List.mem_cons_self a p')
  have ho : isSpace o = false := hop o (List.mem_cons_self o op)
  simp only [matchField, bind, Option.bind]
  cases h1 : reSpaces1 (l ++ (a :: p') ++ W) with
  | none => rfl
  | some r =>
    simp only []
    have e : l ++ (a :: p') ++ W = l ++ a :: (p' ++ W) := by simp
    rw [e] at h1
    obtain ⟨l2, hl2, rfl⟩ := reSpaces1_shape l a _ r hl (isReSpace_false_of_isSpace_false ha) h1
    cases l2 with
    | cons c l2 =>
      have hc : c ≠ o := by
        intro e; have := hl2 c (List.mem_cons_self c l2); rw [e, ho] at this; cases this
      rw [List.cons_append, stripLit_cons_ne o op c _ hc]
    | nil =>
      cases h2 : stripLit (o :: op) ([] ++ a :: (p' ++ W)) with
      | none => rfl
      | some r2 =>
        simp only []
        have e2 : [] ++ a :: (p' ++ W) = (a :: p') ++ W := by simp
        rw [e2] at h2
        obtain ⟨q, hq, rfl⟩ := stripLit_prefix_split (o :: op) hop W hW1 _ _ h2
        cases q with
        | cons b q =>
          have hb : isSpace b = false := hps b (by rw [hq]; simp)
          rw [List.cons_append, reSpaces1_head_false b _ (isReSpace_false_of_isSpace_false hb)]
        | nil =>
          cases h3 : reSpaces1 ([] ++ W) with
          | none => rfl
          | some r3 =>
            simp only []
            rw [List.nil_append] at h3
            rw [hW2 r3 h3]

/-- Blanks that are not all white space for the pattern cannot start a field. -/
theorem matchField_none_of_space (o : Char) (op cl : List Char) (ho : isSpace o = false)
    (l Y : List Char) (hl : ∀ c ∈ l, isSpace c = true)
    (hnot : ¬ ∀ c ∈ l, isReSpace c = true) :
    matchField (o :: op) cl (l ++ Y) = none := by
  have hsplit : l = l.takeWhile isReSpace ++ l.dropWhile isReSpace :=
    (List.takeWhile_append_dropWhile isReSpace l).symm
  have hne : l.dropWhile isReSpace ≠ [] := by
    intro hnil
    apply hnot
    intro c hc
    rw [hsplit, hnil, List.append_nil] at hc
    exact List.mem_takeWhile_imp hc
  obtain ⟨d, t2, hd⟩ := List.exists_cons_of_ne_nil hne
  have hdr : isReSpace d = false := by
    have := List.head_dropWhile_not isReSpace l hne
    simpa [hd] using this
  have hds : isSpace d = true := hl d (by rw [hsplit, hd]; simp)
  have hdo : d ≠ o := by
    intro e; rw [e, ho] at hds; cases hds
  simp only [matchField, bind, Option.bind]
  cases h1 : reSpaces1 (l ++ Y) with
  | none => rfl
  | some r =>
    simp only []
    have e : l ++ Y = l.takeWhile isReSpace ++ d :: (t2 ++ Y) := by
      conv_lhs => rw [hsplit, hd]
      simp
    rw [e] at h1
    by_cases ht : l.takeWhile isReSpace = []
    · rw [ht, List.nil_append, reSpaces1_head_false d _ hdr] at h1
      cases h1
    · rw [reSpaces1_run _ d _ ht (fun c hc => List.mem_takeWhile_imp hc) hdr] at h1
      injection h1 with h1
      rw [← h1, stripLit_cons_ne o op d _ hdo]

theorem lazyGroup_cons_none (acc : List Char) (c : Char) (cs : List Char) (hc : c ≠ '\n')
    (h : matchTail cs = none) : lazyGroup acc (c :: cs) = lazyGroup (acc ++ [c]) cs := by
  rw [lazyGroup]
  simp only [hc, if_false, h]

theorem lazyGroup_cons_some (acc : List Char) (c : Char) (cs g2 g3 rest : List Char)
    (hc : c ≠ '\n') (h : matchTail cs = some (g2, g3, rest)) :
    lazyGroup acc (c :: cs) = some (acc ++ [c], g2, g3, rest) := by
  rw [lazyGroup]
  simp only [hc, if_false, h]

/-- The lazy group passes over `pre` when the rest of the pattern matches
after no non-empty prefix of it. -/
theorem lazyGroup_skip (c : Char) (Y : List Char) :
    ∀ (pre acc : List Char), (∀ x ∈ pre, x ≠ '\n') →
      (∀ a b, pre = a ++ b → a ≠ [] → matchTail (b ++ c :: Y) = none) →
      lazyGroup acc (pre ++ c :: Y) = lazyGroup (acc ++ pre) (c :: Y) := by
  intro pre
  induction pre with
  | nil => intro acc _ _; simp
  | cons x pre ih =>
    intro acc hnl hnone
    have hx : x ≠ '\n' := hnl x (List.mem_cons_self x pre)
    have h0 : matchTail (pre ++ c :: Y) = none := hnone [x] pre rfl (by simp)
    have step : lazyGroup acc (x :: pre ++ c :: Y) = lazyGroup (acc ++ [x]) (pre ++ c :: Y) :=
      lazyGroup_cons_none acc x _ hx h0
    rw [step, ih (acc ++ [x]) (fun y hy => hnl y (List.mem_cons_of_mem x hy))]
    · simp
    · intro a b hab ha
      exact hnone (x :: a) b (by rw [hab]; rfl) (by simp)

/-- Through trailing blanks the lazy group stops at the first place from
which only white space of the pattern remains before the fields. -/
theorem lazyGroup_trail (X g2 g3 rest : List Char)
    (hX : ∀ w, (∀ c ∈ w, isReSpace c = true) → matchTail (w ++ X) = some (g2, g3, rest)) :
    ∀ (trail acc : List Char) (c : Char), c ≠ '\n' →
      (∀ x ∈ trail, isSpace x = true ∧ x ≠ '\n') →
      ∃ t1, (∀ x ∈ t1, isSpace x = true) ∧
        lazyGroup acc (c :: (trail ++ X)) = some (acc ++ [c] ++ t1, g2, g3, rest) := by
  intro trail
  induction trail with
  | nil =>
    intro acc c hc _
    refine ⟨[], by simp, ?_⟩
    have := hX [] (by simp)
    simp only [List.nil_append] at this
    rw [List.nil_append, lazyGroup_cons_some acc c X g2 g3 rest hc this]
    simp
  | cons d tr ih =>
    intro acc c hc htr
    by_cases hall : ∀ x ∈ d :: tr, isReSpace x = true
    · refine ⟨[], by simp, ?_⟩
      rw [lazyGroup_cons_some acc c _ g2 g3 rest hc (hX (d :: tr) hall)]
      simp
    · have hnone : matchTail ((d :: tr) ++ X) = none :=
        matchTail_none_of_matchField
          (matchField_none_of_space '(' "Status:".toList _ (by decide) (d :: tr) X
            (fun x hx => (htr x hx).1) hall)
      obtain ⟨t1, ht1, h⟩ := ih (acc ++ [c]) d (htr d (List.mem_cons_self d tr)).2
        (fun x hx => htr x (List.mem_cons_of_mem d hx))
      refine ⟨d :: t1, ?_, ?_⟩
      · intro x hx
        rcases List.mem_cons.1 hx with rfl | hx
        · exact (htr x (List.mem_cons_self x tr)).1
        · exact ht1 x hx
      · have step : lazyGroup acc (c :: ((d :: tr) ++ X))
            = lazyGroup (acc ++ [c]) (d :: (tr ++ X)) :=
          lazyGroup_cons_none acc c _ hc hnone
        rw [step, h]
        simp

/-- Blanks around a path free of blanks are trimmed away. -/
theorem trimSpaceL_pad (lead p t : List Char) (hl : ∀ c ∈ lead, isSpace c = true)
    (hp : p ≠ []) (hps : ∀ c ∈ p, isSpace c = false) (ht : ∀ c ∈ t, isSpace c = true) :
    trimSpaceL (lead ++ p ++ t) = p := by
  obtain ⟨a, p', rfl⟩ := List.exists_cons_of_ne_nil hp
  have ha : isSpace a = false := hps a (List.mem_cons_self a p')
  have e1 : (lead ++ (a :: p') ++ t).dropWhile isSpace = (a :: p') ++ t := by
    rw [List.append_assoc, dropWhile_append_all _ _ _ hl]
    simp [List.dropWhile_cons, ha]
  have hlast : isSpace ((a :: p').getLast hp) = false := hps _ (List.getLast_mem hp)
  have e2 : ((a :: p') ++ t).reverse.dropWhile isSpace = (a :: p').reverse := by
    rw [List.reverse_append, dropWhile_append_all _ _ _ (fun c hc => ht c (List.mem_reverse.1 hc))]
    have hne : (a :: p').reverse ≠ [] := by simp
    obtain ⟨b, q, hq⟩ := List.exists_cons_of_ne_nil hne
    have hb : isSpace b = false := hps b (by
      have : b ∈ (a :: p').reverse := by rw [hq]; simp
      exact List.mem_reverse.1 this)
    rw [hq]
    simp [List.dropWhile_cons, hb]
  unfold trimSpaceL
  rw [e1, e2, List.reverse_reverse]

/-- The submatches of a result line: the first group is the path with its
leading blanks and some of its trailing blanks, the other two are the
numerals. -/
theorem lazyGroup_shape (lead p trail w1 w2 s w3 w4 z rest : List Char)
    (hl : ∀ c ∈ lead, isSpace c = true ∧ c ≠ '\n')
    (hp : p ≠ []) (hps : ∀ c ∈ p, isSpace c = false)
    (ht : ∀ c ∈ trail, isSpace c = true ∧ c ≠ '\n')
    (h1 : w1 ≠ []) (hw1 : ∀ c ∈ w1, isReSpace c = true)
    (h2 : w2 ≠ []) (hw2 : ∀ c ∈ w2, isReSpace c = true)
    (h3 : w3 ≠ []) (hw3 : ∀ c ∈ w3, isReSpace c = true)
    (h4 : w4 ≠ []) (hw4 : ∀ c ∈ w4, isReSpace c = true)
    (hs : s ≠ []) (hsd : ∀ c ∈ s, isReDigit c = true)
    (hz : z ≠ []) (hzd : ∀ c ∈ z, isReDigit c = true) :
    ∃ t1, (∀ x ∈ t1, isSpace x = true) ∧
      lazyGroup [] (lead ++ p ++ trail ++ shapeTail w1 w2 s w3 w4 z rest)
        = some (lead ++ p ++ t1, s, z, rest) := by
  -- what follows the white space `w` in front of the first field
  obtain ⟨Y, hY⟩ : ∃ Y, ∀ w, w ++ shapeTail w1 w2 s w3 w4 z rest = (w ++ w1) ++ '(' :: Y :=
    ⟨"Status:".toList ++ w2 ++ s ++ ")".toList ++
      (w3 ++ "[Size:".toList ++ w4 ++ z ++ "]".toList ++ rest), by
      intro w
      simp [shapeTail, show "(Status:".toList = '(' :: "Status:".toList from rfl]⟩
  have hX : ∀ w, (∀ c ∈ w, isReSpace c = true) →
      matchTail (w ++ shapeTail w1 w2 s w3 w4 z rest) = some (s, z, rest) := by
    intro w hw
    have := matchTail_good (w ++ w1) w2 s w3 w4 z rest (by simp [h1])
      (by
        intro c hc
        rcases List.mem_append.1 hc with h | h
        · exact hw c h
        · exact hw1 c h) h2 hw2 h3 hw3 h4 hw4 hs hsd hz hzd
    rw [← this]
    simp [shapeTail]
  -- the text from the trailing blanks on starts with a blank, and no digit
  -- follows its leading white space
  have hW1 : ∀ t : List Char, (∀ c ∈ t, isSpace c = true) →
      ∃ c cs, t ++ shapeTail w1 w2 s w3 w4 z rest = c :: cs ∧ isSpace c = true := by
    intro t htt
    obtain ⟨a, w1', rfl⟩ := List.exists_cons_of_ne_nil h1
    have ha := isSpace_of_isReSpace (hw1 a (List.mem_cons_self a w1'))
    cases t with
    | nil => exact ⟨a, _, rfl, ha⟩
    | cons b t => exact ⟨b, _, rfl, htt b (List.mem_cons_self b t)⟩
  have hW2 : ∀ t : List Char, (∀ c ∈ t, isSpace c = true) →
      ∀ r, reSpaces1 (t ++ shapeTail w1 w2 s w3 w4 z rest) = some r → reDigits1 r = none := by
    intro t htt r hr
    rw [hY t] at hr
    obtain ⟨l2, hl2, rfl⟩ := reSpaces1_shape (t ++ w1) '(' Y r (by
      intro c hc
      rcases List.mem_append.1 hc with h | h
      · exact htt c h
      · exact isSpace_of_isReSpace (hw1 c h)) (by decide) hr
    cases l2 with
    | nil => rfl
    | cons b l2 =>
      have hb : isReDigit b = false := by
        cases hbd : isReDigit b
        · rfl
        · have := isSpace_false_of_isReDigit hbd
          rw [hl2 b (List.mem_cons_self b l2)] at this
          cases this
      simp [reDigits1, hb]
  have htS : ∀ c ∈ trail, isSpace c = true := fun c hc => (ht c hc).1
  obtain ⟨pi, pl, rfl⟩ : ∃ pi pl, p = pi ++ [pl] :=
    ⟨p.dropLast, p.getLast hp, (List.dropLast_append_getLast hp).symm⟩
  have hplS : isSpace pl = false := hps pl (by simp)
  have hpl : pl ≠ '\n' := by
    intro e; rw [e] at hplS; revert hplS; decide
  have hskip := lazyGroup_skip pl (trail ++ shapeTail w1 w2 s w3 w4 z rest) (lead ++ pi) []
    (by
      intro x hx
      rcases List.mem_append.1 hx with h | h
      · exact (hl x h).2
      · intro e
        have := hps x (by simp [h])
        rw [e] at this; revert this; decide)
    (by
      intro a b hab _
      -- `b ++ [pl]` is blanks followed by a non-empty piece of the path
      obtain ⟨l', q, hq, hl', hqne, hqs⟩ : ∃ l' q, b ++ [pl] = l' ++ q ∧
          (∀ c ∈ l', isSpace c = true) ∧ q ≠ [] ∧ (∀ c ∈ q, isSpace c = false) := by
        rcases List.append_eq_append_iff.1 hab with ⟨a', _, hb⟩ | ⟨c', _, hpi⟩
        · refine ⟨[], b ++ [pl], by simp, by simp, by simp, ?_⟩
          intro c hc
          apply hps
          rcases List.mem_append.1 hc with h | h
          · rw [hb]; simp [h]
          · simp at h; simp [h]
        · refine ⟨c', pi ++ [pl], by rw [hpi]; simp, ?_, by simp, hps⟩
          intro c hc
          exact (hl c (by rw [‹lead = a ++ c'›]; simp [hc])).1
      apply matchTail_none_of_matchField
      have e : b ++ pl :: (trail ++ shapeTail w1 w2 s w3 w4 z rest)
          = l' ++ q ++ (trail ++ shapeTail w1 w2 s w3 w4 z rest) := by
        rw [← hq]; simp
      rw [e]
      exact matchField_lead_none '(' "Status:".toList _ (by decide) l' q _ hl' hqne hqs
        (hW1 trail htS) (hW2 trail htS))
  obtain ⟨t1, ht1, h⟩ := lazyGroup_trail _ s z rest hX trail ([] ++ (lead ++ pi)) pl hpl ht
  refine ⟨t1, ht1, ?_⟩
  have e : lead ++ (pi ++ [pl]) ++ trail ++ shapeTail w1 w2 s w3 w4 z rest
      = (lead ++ pi) ++ pl :: (trail ++ shapeTail w1 w2 s w3 w4 z rest) := by simp
  rw [e, hskip, h]
  simp

theorem parseDigits_digits (s : List Char) (hsd : ∀ c ∈ s, isReDigit c = true) :
    ∀ acc : Nat, parseDigits acc s
      = some (acc * 10 ^ s.length
          + Nat.ofDigits 10 (s.reverse.map (fun c => c.toNat - '0'.toNat))) := by
  induction s with
  | nil => intro acc; simp [parseDigits]
  | cons c s ih =>
    intro acc
    have hc : isReDigit c = true := hsd c (List.mem_cons_self c s)
    rw [parseDigits]
    simp only [hc, if_true]
    rw [ih (fun d hd => hsd d (List.mem_cons_of_mem c hd))]
    simp only [List.reverse_cons, List.map_append, List.map_cons, List.map_nil,
      Nat.ofDigits_append, Nat.ofDigits_singleton, List.length_map, List.length_reverse,
      List.length_cons]
    congr 1
    ring

theorem scanToken_digits (s : List Char) (hs : s ≠ []) (hsd : ∀ c ∈ s, isReDigit c = true) :
    scanToken s = some (false, s) := by
  obtain ⟨a, t, rfl⟩ := List.exists_cons_of_ne_nil hs
  have ha : isReDigit a = true := hsd a (List.mem_cons_self a t)
  have hsp : isSpace a = false := isSpace_false_of_isReDigit ha
  have hm : (a == '-') = false := by
    cases h : a == '-'
    · rfl
    · rw [beq_iff_eq] at h; rw [h] at ha; revert ha; decide
  have hpl : (a == '+') = false := by
    cases h : a == '+'
    · rfl
    · rw [beq_iff_eq] at h; rw [h] at ha; revert ha; decide
  have htk : (a :: t).takeWhile (fun d => isReDigit d || d == '_') = a :: t := by
    have := takeWhile_append_all (fun d => isReDigit d || d == '_') (a :: t) []
      (fun c hc => by simp [hsd c hc])
    simpa using this
  unfold scanToken
  simp only [List.dropWhile_cons, hsp, Bool.false_and, Bool.false_eq_true, if_false]
  rw [hm, hpl]
  simp only [Bool.or_self, Bool.false_eq_true, if_false, htk, List.isEmpty_cons]

/-- On a run of digits `%d` stores the value when it fits the `int` and
fails otherwise. -/
theorem Sscanf_d_digits (s : String) (hs : s ≠ "") (hsd : ∀ c ∈ s.data, isReDigit c = true) :
    Sscanf_d s = if decimalValue s < 2 ^ (intBits - 1) then some (decimalValue s : Int)
      else none := by
  have hs' : s.data ≠ [] := by
    intro h; apply hs; cases s; simp_all
  unfold Sscanf_d
  rw [scanToken_digits s.data hs' hsd]
  simp only [parseDigits_digits s.data hsd 0, Nat.zero_mul, Nat.zero_add]
  rfl

theorem parseGobusterLine_of_lazyGroup (line scanType : String) (g1 g2 g3 rest : List Char)
    (h : lazyGroup [] line.data = some (g1, g2, g3, rest)) :
    parseGobusterLine line scanType
      = some ⟨TrimSpace ⟨g1⟩, (Sscanf_d ⟨g2⟩).getD 0, (Sscanf_d ⟨g3⟩).getD 0, scanType⟩ := by
  simp [parseGobusterLine, FindStringSubmatch, h]

theorem parseGobusterLine_of_lazyGroup_none (line scanType : String)
    (h : lazyGroup [] line.data = none) : parseGobusterLine line scanType = none := by
  simp [parseGobusterLine, FindStringSubmatch, h]

theorem data_ne_nil {s : String} (h : s ≠ "") : s.data ≠ [] := by
  intro h'; apply h; cases s; simp_all

/-- The line parser on a result line with blanks around its path: the path,
and what `%d` makes of the two numerals. -/
theorem parseGobusterLine_padded (scanType lead p trail s z : String)
    (hl : ∀ c ∈ lead.data, isSpace c = true ∧ c ≠ '\n')
    (hp : p ≠ "") (hps : ∀ c ∈ p.data, isSpace c = false)
    (ht : ∀ c ∈ trail.data, isSpace c = true ∧ c ≠ '\n')
    (hs : s ≠ "") (hsd : ∀ c ∈ s.data, isReDigit c = true)
    (hz : z ≠ "") (hzd : ∀ c ∈ z.data, isReDigit c = true) :
    parseGobusterLine (lead ++ p ++ trail ++ " (Status: " ++ s ++ ") [Size: " ++ z ++ "]") scanType
      = some ⟨p, (Sscanf_d s).getD 0, (Sscanf_d z).getD 0, scanType⟩ := by
  have hsp : ∀ c ∈ [' '], isReSpace c = true := by
    intro c hc; simp at hc; subst hc; decide
  obtain ⟨t1, ht1, h⟩ := lazyGroup_shape lead.data p.data trail.data [' '] [' '] s.data [' '] [' ']
    z.data [] hl (data_ne_nil hp) hps ht (by simp) hsp (by simp) hsp (by simp) hsp (by simp) hsp
    (data_ne_nil hs) hsd (data_ne_nil hz) hzd
  have e : (lead ++ p ++ trail ++ " (Status: " ++ s ++ ") [Size: " ++ z ++ "]").data
      = lead.data ++ p.data ++ trail.data
          ++ shapeTail [' '] [' '] s.data [' '] [' '] z.data [] := by
    simp [shapeTail, String.data_append]
  rw [parseGobusterLine_of_lazyGroup _ _ _ _ _ _ (e ▸ h)]
  have htrim : TrimSpace ⟨lead.data ++ p.data ++ t1⟩ = p := by
    unfold TrimSpace
    simp only []
    rw [trimSpaceL_pad lead.data p.data t1 (fun c hc => (hl c hc).1) (data_ne_nil hp) hps ht1]
  rw [htrim]

theorem reSpaces1_some {cs r : List Char} (h : reSpaces1 cs = some r) :
    ∃ w, w ≠ [] ∧ (∀ c ∈ w, isReSpace c = true) ∧ cs = w ++ r := by
  cases cs with
  | nil => cases h
  | cons a cs =>
    simp only [reSpaces1] at h
    split at h
    · rename_i ha
      injection h with h
      refine ⟨a :: cs.takeWhile isReSpace, by simp, ?_, ?_⟩
      · intro c hc
        rcases List.mem_cons.1 hc with rfl | hc
        · exact ha
        · exact List.mem_takeWhile_imp hc
      · rw [← h]; simp
    · cases h

theorem reDigits1_some {cs g r : List Char} (h : reDigits1 cs = some (g, r)) :
    g ≠ [] ∧ (∀ c ∈ g, isReDigit c = true) ∧ cs = g ++ r := by
  cases cs with
  | nil => cases h
  | cons a cs =>
    simp only [reDigits1] at h
    split at h
    · rename_i ha
      injection h with h
      injection h with hg hr
      subst hg; subst hr
      refine ⟨by simp, ?_, by simp⟩
      intro c hc
      rcases List.mem_cons.1 hc with rfl | hc
      · exact ha
      · exact List.mem_takeWhile_imp hc
    · cases h

theorem stripLit_some : ∀ (lit cs r : List Char), stripLit lit cs = some r → cs = lit ++ r := by
  intro lit
  induction lit with
  | nil =>
    intro cs r h
    have : stripLit [] cs = some cs := by cases cs <;> rfl
    rw [this] at h
    exact Option.some.inj h
  | cons l ls ih =>
    intro cs r h
    cases cs with
    | nil => cases h
    | cons c cs =>
      simp only [stripLit] at h
      split at h
      · rename_i hc
        rw [hc, ih cs r h]; rfl
      · cases h

theorem matchField_some {op cl cs g r : List Char} (h : matchField op cl cs = some (g, r)) :
    ∃ w1 w2, cs = w1 ++ op ++ w2 ++ g ++ cl ++ r ∧
      (w1 ≠ [] ∧ ∀ c ∈ w1, isReSpace c = true) ∧ (w2 ≠ [] ∧ ∀ c ∈ w2, isReSpace c = true) ∧
      (g ≠ [] ∧ ∀ c ∈ g, isReDigit c = true) := by
  simp only [matchField, bind, Option.bind] at h
  cases h1 : reSpaces1 cs with
  | none => rw [h1] at h; cases h
  | some r1 =>
    rw [h1] at h; simp only [] at h
    cases h2 : stripLit op r1 with
    | none => rw [h2] at h; cases h
    | some r2 =>
      rw [h2] at h; simp only [] at h
      cases h3 : reSpaces1 r2 with
      | none => rw [h3] at h; cases h
      | some r3 =>
        rw [h3] at h; simp only [] at h
        cases h4 : reDigits1 r3 with
        | none => rw [h4] at h; cases h
        | some gr =>
          obtain ⟨g', r4⟩ := gr
          rw [h4] at h; simp only [] at h
          cases h5 : stripLit cl r4 with
          | none => rw [h5] at h; cases h
          | some r5 =>
            rw [h5] at h; simp only [pure, Option.some.injEq, Prod.mk.injEq] at h
            obtain ⟨hg, hr⟩ := h
            subst hg; subst hr
            obtain ⟨w1, hw1, hw1s, e1⟩ := reSpaces1_some h1
            obtain ⟨w2, hw2, hw2s, e3⟩ := reSpaces1_some h3
            obtain ⟨hgne, hgd, e4⟩ := reDigits1_some h4
            have e2 := stripLit_some _ _ _ h2
            have e5 := stripLit_some _ _ _ h5
            refine ⟨w1, w2, ?_, ⟨hw1, hw1s⟩, ⟨hw2, hw2s⟩, ⟨hgne, hgd⟩⟩
            rw [e1, e2, e3, e4, e5]
            simp

theorem matchTail_some {cs g2 g3 rest : List Char} (h : matchTail cs = some (g2, g3, rest)) :
    ∃ w1 w2 w3 w4, cs = shapeTail w1 w2 g2 w3 w4 g3 rest ∧
      (w1 ≠ [] ∧ ∀ c ∈ w1, isReSpace c = true) ∧ (w2 ≠ [] ∧ ∀ c ∈ w2, isReSpace c = true) ∧
      (w3 ≠ [] ∧ ∀ c ∈ w3, isReSpace c = true) ∧ (w4 ≠ [] ∧ ∀ c ∈ w4, isReSpace c = true) ∧
      (g2 ≠ [] ∧ ∀ c ∈ g2, isReDigit c = true) ∧ (g3 ≠ [] ∧ ∀ c ∈ g3, isReDigit c = true) := by
  unfold matchTail at h
  cases h1 : matchField "(Status:".toList ")".toList cs with
  | none => rw [h1] at h; cases h
  | some gr =>
    obtain ⟨a, r1⟩ := gr
    rw [h1] at h
    simp only [bind, Option.bind] at h
    cases h2 : matchField "[Size:".toList "]".toList r1 with
    | none => rw [h2] at h; cases h
    | some gr2 =>
      obtain ⟨b, r2⟩ := gr2
      rw [h2] at h
      simp only [pure, Option.some.injEq, Prod.mk.injEq] at h
      obtain ⟨ha, hb, hr⟩ := h
      subst ha; subst hb; subst hr
      obtain ⟨w1, w2, e1, p1, p2, p3⟩ := matchField_some h1
      obtain ⟨w3, w4, e2, p4, p5, p6⟩ := matchField_some h2
      refine ⟨w1, w2, w3, w4, ?_, p1, p2, p4, p5, p3, p6⟩
      rw [e1, e2]
      simp [shapeTail]

/-- What the lazy group returns is a split of the text: a group free of line
feeds and a match of the rest of the pattern right after it. -/
theorem lazyGroup_some : ∀ (cs acc g1 g2 g3 rest : List Char),
    lazyGroup acc cs = some (g1, g2, g3, rest) →
    ∃ pre tl, cs = pre ++ tl ∧ pre ≠ [] ∧ (∀ c ∈ pre, c ≠ '\n') ∧ g1 = acc ++ pre ∧
      matchTail tl = some (g2, g3, rest) := by
  intro cs
  induction cs with
  | nil => intro acc g1 g2 g3 rest h; cases h
  | cons c cs ih =>
    intro acc g1 g2 g3 rest h
    by_cases hc : c = '\n'
    · rw [lazyGroup] at h
      simp [hc] at h
    · cases hm : matchTail cs with
      | some t =>
        obtain ⟨a, b, r⟩ := t
        rw [lazyGroup_cons_some acc c cs a b r hc hm] at h
        simp only [Option.some.injEq, Prod.mk.injEq] at h
        obtain ⟨h1, h2, h3, h4⟩ := h
        subst h1; subst h2; subst h3; subst h4
        exact ⟨[c], cs, rfl, by simp, by simpa using hc, rfl, hm⟩
      | none =>
        rw [lazyGroup_cons_none acc c cs hc hm] at h
        obtain ⟨pre, tl, e, _, hnl, hg, hmt⟩ := ih _ _ _ _ _ h
        refine ⟨c :: pre, tl, by rw [e]; rfl, by simp, ?_, by rw [hg]; simp, hmt⟩
        intro x hx
        rcases List.mem_cons.1 hx with rfl | hx
        · exact hc
        · exact hnl x hx

/-- The lazy group finds a match whenever the rest of the pattern matches
after some non-empty prefix free of line feeds. -/
theorem lazyGroup_isSome (tl : List Char) (hm : (matchTail tl).isSome = true) :
    ∀ (pre acc : List Char) (c : Char), (∀ x ∈ pre ++ [c], x ≠ '\n') →
      (lazyGroup acc (pre ++ c :: tl)).isSome = true := by
  intro pre
  induction pre with
  | nil =>
    intro acc c hnl
    have hc : c ≠ '\n' := hnl c (by simp)
    cases h : matchTail tl with
    | none => rw [h] at hm; cases hm
    | some t =>
      obtain ⟨a, b, r⟩ := t
      rw [List.nil_append, lazyGroup_cons_some acc c tl a b r hc h]
      rfl
  | cons x pre ih =>
    intro acc c hnl
    have hx : x ≠ '\n' := hnl x (by simp)
    cases h : matchTail (pre ++ c :: tl) with
    | some t =>
      obtain ⟨a, b, r⟩ := t
      rw [List.cons_append, lazyGroup_cons_some acc x _ a b r hx h]
      rfl
    | none =>
      rw [List.cons_append, lazyGroup_cons_none acc x _ hx h]
      exact ih _ c (fun y hy => hnl y (by simp at hy ⊢; tauto))

/-- The line parser returns a finding exactly on the lines that start with
the shape. -/
theorem parseGobusterLine_isSome_iff (line scanType : String) :
    (parseGobusterLine line scanType).isSome = true ↔ StartsWithShape line := by
  constructor
  · intro h
    cases hl : lazyGroup [] line.data with
    | none => rw [parseGobusterLine_of_lazyGroup_none line scanType hl] at h; cases h
    | some t =>
      obtain ⟨g1, g2, g3, rest⟩ := t
      obtain ⟨pre, tl, e, hpre, hnl, _, hmt⟩ := lazyGroup_some _ _ _ _ _ _ hl
      obtain ⟨w1, w2, w3, w4, e2, p1, p2, p3, p4, p5, p6⟩ := matchTail_some hmt
      exact ⟨pre, w1, w2, g2, w3, w4, g3, rest, by rw [e, e2], hpre, hnl, p1, p2, p3, p4, p5, p6⟩
  · rintro ⟨path, w1, w2, s, w3, w4, z, rest, e, hpath, hnl, p1, p2, p3, p4, p5, p6⟩
    have hm := matchTail_good w1 w2 s w3 w4 z rest p1.1 p1.2 p2.1 p2.2 p3.1 p3.2 p4.1 p4.2
      p5.1 p5.2 p6.1 p6.2
    have hsome := lazyGroup_isSome (shapeTail w1 w2 s w3 w4 z rest) (by rw [hm]; rfl)
      path.dropLast [] (path.getLast hpath) (by
        rw [List.dropLast_append_getLast hpath]; exact hnl)
    have e' : line.data = path.dropLast ++ path.getLast hpath :: shapeTail w1 w2 s w3 w4 z rest := by
      rw [e]
      conv_lhs => rw [← List.dropLast_append_getLast hpath]
      simp
    rw [← e'] at hsome
    cases hl : lazyGroup [] line.data with
    | none => rw [hl] at hsome; cases hsome
    | some t =>
      obtain ⟨g1, g2, g3, r⟩ := t
      rw [parseGobusterLine_of_lazyGroup line scanType g1 g2 g3 r hl]
      rfl

/-! ## Lemmas on the loop of `parseResults` -/

theorem dropWhile_append_singleton {α : Type} (p : α → Bool) (x : α) (hx : p x = false) :
    ∀ l : List α, (l ++ [x]).dropWhile p = l.dropWhile p ++ [x] := by
  intro l
  induction l with
  | nil => simp [List.dropWhile_cons, hx]
  | cons a l ih =>
    by_cases ha : p a = true
    · simp [List.dropWhile_cons, ha, ih]
    · simp [List.dropWhile_cons, ha]

/-- What `strings.TrimSpace` removes in front is blanks only. -/
theorem trimSpaceL_split (cs : List Char) :
    ∃ lead trail, cs = lead ++ trimSpaceL cs ++ trail ∧ ∀ c ∈ lead, isSpace c = true := by
  refine ⟨cs.takeWhile isSpace,
    ((cs.dropWhile isSpace).reverse.takeWhile isSpace).reverse, ?_,
    fun c hc => List.mem_takeWhile_imp hc⟩
  have h1 := List.takeWhile_append_dropWhile isSpace cs
  have h2 := List.takeWhile_append_dropWhile isSpace (cs.dropWhile isSpace).reverse
  have h3 : cs.dropWhile isSpace
      = ((cs.dropWhile isSpace).reverse.dropWhile isSpace).reverse
        ++ ((cs.dropWhile isSpace).reverse.takeWhile isSpace).reverse := by
    rw [← List.reverse_append, h2, List.reverse_reverse]
  unfold trimSpaceL
  rw [List.append_assoc, ← h3, h1]

/-- A line that starts with `=` still does after trimming. -/
theorem hasPrefixL_trim_eq (cs : List Char) (h : hasPrefixL cs ['='] = true) :
    hasPrefixL (trimSpaceL cs) ['='] = true := by
  cases cs with
  | nil => simp [hasPrefixL] at h
  | cons a r =>
    have ha : a = '=' := by
      simp only [hasPrefixL, Bool.and_eq_true, beq_iff_eq] at h
      exact h.1
    subst ha
    have e1 : ('=' :: r).dropWhile isSpace = '=' :: r :=
      List.dropWhile_cons_of_neg (by decide)
    have e2 : ('=' :: r).reverse = r.reverse ++ ['='] := by simp
    unfold trimSpaceL
    rw [e1, e2, dropWhile_append_singleton isSpace '=' (by decide)]
    simp [hasPrefixL]

theorem parseResultsLines_cons (scanType : String) (results : List ScanResult) (text : String)
    (rest : List String) :
    parseResultsLines scanType results (text :: rest)
      = parseResultsLines scanType (parseResultsLine scanType results text) rest := rfl

/-- One turn of the loop on a line the parser rejects after trimming: the
store is as before. -/
theorem parseResultsLine_of_parse_none (scanType : String) (results : List ScanResult)
    (text : String) (hparse : parseGobusterLine (TrimSpace text) scanType = none) :
    parseResultsLine scanType results text = results := by
  unfold parseResultsLine
  simp only [hparse]
  split
  · rfl
  · split <;> rfl

/-- C1: for every scan-type tag and every line `<p> (Status: <s>) [Size: <z>]`
with `p` non-empty and free of white space and `s`, `z` non-empty decimal
numerals whose values fit the integer type, `parseGobusterLine` returns a
finding whose URL is `p`, whose status code and size are the numbers written
by `s` and `z`, and whose scan type is the tag; blanks before and after the
path (a line holds no line feed) are trimmed away. -/
theorem parseGobusterLine_extracts_fields (scanType lead p trail s z : String)
    (hl : ∀ c ∈ lead.data, isSpace c = true ∧ c ≠ '\n')
    (hp : p ≠ "") (hps : ∀ c ∈ p.data, isSpace c = false)
    (ht : ∀ c ∈ trail.data, isSpace c = true ∧ c ≠ '\n')
    (hs : s ≠ "") (hsd : ∀ c ∈ s.data, isReDigit c = true)
    (hsfit : decimalValue s < 2 ^ (intBits - 1))
    (hz : z ≠ "") (hzd : ∀ c ∈ z.data, isReDigit c = true)
    (hzfit : decimalValue z < 2 ^ (intBits - 1)) :
    parseGobusterLine (p ++ " (Status: " ++ s ++ ") [Size: " ++ z ++ "]") scanType
      = some ⟨p, decimalValue s, decimalValue z, scanType⟩ ∧
    parseGobusterLine (lead ++ p ++ trail ++ " (Status: " ++ s ++ ") [Size: " ++ z ++ "]") scanType
      = some ⟨p, decimalValue s, decimalValue z, scanType⟩ := by
  have hS : (Sscanf_d s).getD 0 = (decimalValue s : Int) := by
    rw [Sscanf_d_digits s hs hsd, if_pos hsfit]; rfl
  have hZ : (Sscanf_d z).getD 0 = (decimalValue z : Int) := by
    rw [Sscanf_d_digits z hz hzd, if_pos hzfit]; rfl
  constructor
  · have := parseGobusterLine_padded scanType "" p "" s z (by simp) hp hps (by simp)
      hs hsd hz hzd
    rw [hS, hZ] at this
    simpa using this
  · have := parseGobusterLine_padded scanType lead p trail s z hl hp hps ht hs hsd hz hzd
    rw [hS, hZ] at this
    exact this

theorem parseGobusterLine_extracts_fields_witness :
    parseGobusterLine "/admin (Status: 200) [Size: 1234]" "directory"
      = some ⟨"/admin", 200, 1234, "directory"⟩ ∧
    parseGobusterLine " /admin\t (Status: 200) [Size: 1234]" "directory"
      = some ⟨"/admin", 200, 1234, "directory"⟩ := by
  have h := parseGobusterLine_extracts_fields "directory" " " "/admin" "\t" "200" "1234"
    (by decide) (by decide) (by decide) (by decide) (by decide) (by decide)
    (by decide) (by decide) (by decide) (by decide)
  have e1 : decimalValue "200" = 200 := by decide
  have e2 : decimalValue "1234" = 1234 := by decide
  rw [e1, e2] at h
  exact h

/-- C8: a line that is blank after trimming, or begins with `=`, or does not
start with the shape `<path> (Status: <digits>) [Size: <digits>]`, leaves the
result store as it was when the loop of `parseResults` processes it (a total
function: there is no failure), and `parseGobusterLine` returns no match on
every line that does not start with the shape. -/
theorem parseResultsLine_ignores (scanType : String) (results : List ScanResult)
    (text line : String)
    (htext : TrimSpace text = "" ∨ HasPrefix text "=" = true ∨
      HasPrefix (TrimSpace text) "=" = true ∨ ¬ StartsWithShape (TrimSpace text) ∨
      ((∀ c ∈ text.data, c ≠ '\n') ∧ ¬ StartsWithShape text))
    (hline : ¬ StartsWithShape line) :
    parseResultsLine scanType results text = results ∧
      parseGobusterLine line scanType = none := by
  have none_of : ∀ l : String, ¬ StartsWithShape l → parseGobusterLine l scanType = none := by
    intro l hl
    cases h : parseGobusterLine l scanType with
    | none => rfl
    | some r =>
      exact absurd ((parseGobusterLine_isSome_iff l scanType).1 (by rw [h]; rfl)) hl
  refine ⟨?_, none_of line hline⟩
  rcases htext with h | h | h | h | ⟨hnl, h⟩
  · unfold parseResultsLine
    simp [h]
  · have : HasPrefix (TrimSpace text) "=" = true := hasPrefixL_trim_eq text.data h
    unfold parseResultsLine
    simp [this]
  · unfold parseResultsLine
    simp [h]
  · exact parseResultsLine_of_parse_none scanType results text (none_of _ h)
  · apply parseResultsLine_of_parse_none scanType results text
    apply none_of
    rintro ⟨path, w1, w2, s, w3, w4, z, rest, e, hpath, hpnl, p1, p2, p3, p4, p5, p6⟩
    apply h
    obtain ⟨lead, trail, hsplit, _⟩ := trimSpaceL_split text.data
    have e' : (TrimSpace text).data = trimSpaceL text.data := rfl
    rw [e'] at e
    refine ⟨lead ++ path, w1, w2, s, w3, w4, z, rest ++ trail, ?_, by simp [hpath], ?_,
      p1, p2, p3, p4, p5, p6⟩
    · conv_lhs => rw [hsplit, e]
      simp [shapeTail]
    · intro c hc
      rcases List.mem_append.1 hc with hc | hc
      · exact hnl c (by rw [hsplit]; simp [hc])
      · exact hpnl c hc

theorem parseResultsLine_ignores_witness :
    parseResultsLine "directory" [⟨"/a", 200, 1, "directory"⟩] "  ===== (Status: 1) [Size: 2]"
        = [⟨"/a", 200, 1, "directory"⟩] ∧
      parseGobusterLine "/admin (Status: OK) [Size: 12]" "directory" = none :=
  parseResultsLine_ignores "directory" [⟨"/a", 200, 1, "directory"⟩]
    "  ===== (Status: 1) [Size: 2]" "/admin (Status: OK) [Size: 12]"
    (Or.inr (Or.inr (Or.inl (by decide))))
    (fun h => absurd ((parseGobusterLine_isSome_iff _ "").2 h) (by decide))

theorem ite_append_right {α : Type} (c : Prop) [Decidable c] (a x : List α) :
    (if c then a ++ x else a) = a ++ (if c then x else []) := by
  split <;> simp

theorem foldl_headers (hs : List String) : ∀ init : List String,
    hs.foldl (fun args header => args ++ ["-H", header]) init
      = init ++ (hs.map (fun header => ["-H", header])).flatten := by
  induction hs with
  | nil => intro init; simp
  | cons h hs ih => intro init; simp [ih]

/-- C6, as stated, fails: with a negative thread count `buildBaseArgs` emits
no `-t` flag, while the claim (flag if and only if the count is non-zero)
asks for `-t -1`. -/
theorem buildBaseArgs_negative_threads :
    buildBaseArgs ⟨"http://t", ["w"], [], -1, "", "", "out", false, false, "", "", "", [], [], []⟩
      = [] ∧
    baseArgsAsSpecified
        ⟨"http://t", ["w"], [], -1, "", "", "out", false, false, "", "", "", [], [], []⟩
      = ["-t", "-1"] ∧
    buildBaseArgs ⟨"http://t", ["w"], [], -1, "", "", "out", false, false, "", "", "", [], [], []⟩
      ≠ baseArgsAsSpecified
        ⟨"http://t", ["w"], [], -1, "", "", "out", false, false, "", "", "", [], [], []⟩ := by
  decide

/-- C6, amended: `buildBaseArgs` returns exactly the concatenation, in this
order, of `-t` and the decimal thread count if and only if the count is
positive, then each of `--delay`, `--timeout`, `-k`, `-r`, `-a`, `--proxy`,
`-c` with its value if and only if the field is non-empty (set, for the two
booleans), one `-H h` per extra header in list order, and `-s`, `-b` with
the comma-joined codes if and only if the list is non-empty. -/
theorem buildBaseArgs_flags (config : Config) :
    buildBaseArgs config =
      (if 0 < config.Threads then ["-t", fmtInt config.Threads] else []) ++
      (if config.Delay ≠ "" then ["--delay", config.Delay] else []) ++
      (if config.Timeout ≠ "" then ["--timeout", config.Timeout] else []) ++
      (if config.SkipSSL = true then ["-k"] else []) ++
      (if config.FollowRedir = true then ["-r"] else []) ++
      (if config.UserAgent ≠ "" then ["-a", config.UserAgent] else []) ++
      (if config.Proxy ≠ "" then ["--proxy", config.Proxy] else []) ++
      (if config.Cookies ≠ "" then ["-c", config.Cookies] else []) ++
      (config.Headers.map (fun header => ["-H", header])).flatten ++
      (if config.StatusCodes ≠ [] then ["-s", Join config.StatusCodes ","] else []) ++
      (if config.ExcludeCodes ≠ [] then ["-b", Join config.ExcludeCodes ","] else []) := by
  have l1 : ∀ l : List String, (l.length > 0) ↔ l ≠ [] := by
    intro l; cases l <;> simp
  unfold buildBaseArgs
  simp only [ite_append_right, foldl_headers, l1, gt_iff_lt, List.nil_append, Bool.not_eq_true]

/-! ## Recursive selector -/

theorem ToLower_ascii (unicodeLower : Char → Char) (s : String)
    (h : ∀ c ∈ s.data, c.toNat < 128) : ToLower unicodeLower s = ToLower id s := by
  unfold ToLower
  congr 1
  apply List.map_congr_left
  intro c hc
  simp [h c hc]

theorem keywordLoop_eq (unicodeLower : Char → Char) (r : ScanResult) (acc : List String) :
    ∀ ks : List String, keywordLoop unicodeLower r ks acc
      = if (∃ k ∈ ks, Contains (ToLower unicodeLower r.URL) k = true) then acc ++ [r.URL]
        else acc := by
  intro ks
  induction ks with
  | nil => simp [keywordLoop]
  | cons k ks ih =>
    by_cases hk : Contains (ToLower unicodeLower r.URL) k = true
    · simp [keywordLoop, hk]
    · simp [keywordLoop, hk, ih]

theorem selectorLoop_eq (unicodeLower : Char → Char) (rs : List ScanResult) :
    ∀ acc : List String,
      rs.foldl
        (fun interesting result =>
          if result.ScanType = "directory" ∧ result.StatusCode = 200 then
            keywordLoop unicodeLower result interestingKeywords interesting
          else interesting)
        acc
      = acc ++ (rs.filter (fun r => decide (IsInteresting unicodeLower r))).map (fun r => r.URL) := by
  induction rs with
  | nil => intro acc; simp
  | cons r rs ih =>
    intro acc
    rw [List.foldl_cons, ih]
    by_cases h : IsInteresting unicodeLower r
    · have h' := h
      obtain ⟨h1, h2, h3⟩ := h'
      simp [keywordLoop_eq, h1, h2, h3, h]
    · by_cases h12 : r.ScanType = "directory" ∧ r.StatusCode = 200
      · have h3 : ¬ ∃ k ∈ interestingKeywords, Contains (ToLower unicodeLower r.URL) k = true :=
          fun h3 => h ⟨h12.1, h12.2, h3⟩
        simp [keywordLoop_eq, h12, h3, h]
      · simp [h12, h]

/-- C2: `getInterestingDirectories` returns exactly the URLs of the findings
tagged `directory`, with status exactly 200 and a keyword in the lowercased
URL, one entry per such finding and in store order; so a URL is returned if
and only if one of its findings satisfies the three conditions. A directory
finding `/admin` with status 301 is left out, a directory finding `/api/v1`
with status 200 is selected, and no finding tagged `subdomain`, `vhost` or
`recursive` is. -/
theorem getInterestingDirectories_selects (unicodeLower : Char → Char) (ug : UltimateGobuster) :
    getInterestingDirectories unicodeLower ug
      = (ug.results.filter (fun r => decide (IsInteresting unicodeLower r))).map (fun r => r.URL) ∧
    (∀ u, u ∈ getInterestingDirectories unicodeLower ug ↔
      ∃ r ∈ ug.results, r.URL = u ∧ IsInteresting unicodeLower r) ∧
    (∀ size, ¬ IsInteresting unicodeLower ⟨"/admin", 301, size, "directory"⟩) ∧
    (∀ size, IsInteresting unicodeLower ⟨"/api/v1", 200, size, "directory"⟩) ∧
    (∀ size, getInterestingDirectories unicodeLower
      { ug with results := [⟨"/admin", 301, size, "directory"⟩, ⟨"/api/v1", 200, size, "directory"⟩] }
        = ["/api/v1"]) ∧
    (∀ r : ScanResult, r.ScanType = "subdomain" ∨ r.ScanType = "vhost" ∨ r.ScanType = "recursive" →
      ¬ IsInteresting unicodeLower r) := by
  have main : ∀ ug' : UltimateGobuster, getInterestingDirectories unicodeLower ug'
      = (ug'.results.filter (fun r => decide (IsInteresting unicodeLower r))).map
          (fun r => r.URL) := by
    intro ug'
    unfold getInterestingDirectories
    rw [selectorLoop_eq]
    simp
  have hadmin : ∀ size, ¬ IsInteresting unicodeLower ⟨"/admin", 301, size, "directory"⟩ := by
    rintro size ⟨_, h, _⟩
    have h' : (301 : Int) = 200 := h
    exact absurd h' (by decide)
  have hapi : ∀ size, IsInteresting unicodeLower ⟨"/api/v1", 200, size, "directory"⟩ := by
    intro size
    refine ⟨rfl, rfl, "api", by decide, ?_⟩
    show Contains (ToLower unicodeLower "/api/v1") "api" = true
    rw [ToLower_ascii unicodeLower "/api/v1" (by decide)]
    decide
  refine ⟨main ug, ?_, hadmin, hapi, ?_, ?_⟩
  · intro u
    rw [main ug]
    simp only [List.mem_map, List.mem_filter, decide_eq_true_eq]
    constructor
    · rintro ⟨r, ⟨hr, hi⟩, rfl⟩
      exact ⟨r, hr, rfl, hi⟩
    · rintro ⟨r, hr, rfl, hi⟩
      exact ⟨r, ⟨hr, hi⟩, rfl⟩
  · intro size
    rw [main]
    simp [hadmin size, hapi size]
  · rintro r h ⟨hd, _, _⟩
    rw [hd] at h
    revert h
    decide

theorem getInterestingDirectories_selects_witness :
    getInterestingDirectories id
      ⟨⟨"http://t", ["w"], [], 10, "", "", "out", false, false, "", "", "", [], [], []⟩,
        [⟨"/admin", 301, 1, "directory"⟩, ⟨"/API/v1", 200, 2, "directory"⟩,
         ⟨"/login", 200, 3, "vhost"⟩, ⟨"/img", 200, 4, "directory"⟩,
         ⟨"/backup", 200, 5, "directory"⟩], "out"⟩
      = ["/API/v1", "/backup"] :=
  ((getInterestingDirectories_selects id _).1).trans (by decide)

/-! ## Domain extraction -/

theorem splitL_ne_nil (sep : Char) : ∀ cs : List Char, splitL sep cs ≠ [] := by
  intro cs
  induction cs with
  | nil => simp [splitL]
  | cons c cs ih =>
    rw [splitL]
    split
    · simp
    · split <;> simp

/-- The first piece of a split is the text before the first separator. -/
theorem splitL_head (sep : Char) (b : List Char) (hb : b = [] ∨ ∃ r, b = sep :: r) :
    ∀ a : List Char, (∀ c ∈ a, c ≠ sep) → (splitL sep (a ++ b)).headD [] = a := by
  intro a
  induction a with
  | nil =>
    intro _
    rcases hb with rfl | ⟨r, rfl⟩
    · rfl
    · simp [splitL]
  | cons c a ih =>
    intro ha
    have hc : c ≠ sep := ha c (List.mem_cons_self c a)
    have iha := ih (fun d hd => ha d (List.mem_cons_of_mem c hd))
    rw [List.cons_append, splitL]
    simp only [hc, if_false]
    cases hsp : splitL sep (a ++ b) with
    | nil => exact absurd hsp (splitL_ne_nil sep _)
    | cons h t =>
      rw [hsp] at iha
      simp only [List.headD_cons] at iha
      simp [iha]

theorem containsL_singleton_iff (c : Char) : ∀ cs : List Char,
    containsL cs [c] = true ↔ c ∈ cs := by
  intro cs
  induction cs with
  | nil => simp [containsL, hasPrefixL]
  | cons d cs ih =>
    simp only [containsL, hasPrefixL, Bool.or_eq_true, Bool.and_eq_true, beq_iff_eq, ih,
      List.mem_cons]
    constructor
    · rintro (⟨h, _⟩ | h)
      · exact Or.inl h.symm
      · exact Or.inr h
    · rintro (h | h)
      · exact Or.inl ⟨h.symm, trivial⟩
      · exact Or.inr h

/-- No scheme prefix is found in front of a host followed by a port or a
path: the host holds no colon, and `://` cannot follow it. -/
theorem stripLit_scheme_none (h X : List Char) (hne : h ≠ [])
    (hh : ∀ c ∈ h, c ≠ '/' ∧ c ≠ ':') (hX : AfterHost X) :
    stripLit "http://".data (h ++ X) = none ∧ stripLit "https://".data (h ++ X) = none := by
  constructor
  · cases hs : stripLit "http://".data (h ++ X) with
    | none => rfl
    | some r =>
      exfalso
      have e := stripLit_some _ _ _ hs
      rcases h with _ | ⟨c1, _ | ⟨c2, _ | ⟨c3, _ | ⟨c4, _ | ⟨c5, h⟩⟩⟩⟩⟩
      · exact hne rfl
      all_goals
        rcases hX with rfl | ⟨r', rfl⟩ | ⟨q, r', rfl, hq⟩ <;>
          simp_all
  · cases hs : stripLit "https://".data (h ++ X) with
    | none => rfl
    | some r =>
      exfalso
      have e := stripLit_some _ _ _ hs
      rcases h with _ | ⟨c1, _ | ⟨c2, _ | ⟨c3, _ | ⟨c4, _ | ⟨c5, _ | ⟨c6, h⟩⟩⟩⟩⟩⟩
      · exact hne rfl
      all_goals
        rcases hX with rfl | ⟨r', rfl⟩ | ⟨q, r', rfl, hq⟩ <;>
          simp_all

theorem TrimPrefix_of_some (s pre : String) (r : List Char)
    (h : stripLit pre.data s.data = some r) : TrimPrefix s pre = ⟨r⟩ := by
  unfold TrimPrefix
  rw [h]

theorem TrimPrefix_of_none (s pre : String) (h : stripLit pre.data s.data = none) :
    TrimPrefix s pre = s := by
  unfold TrimPrefix
  rw [h]

theorem extractDomain_eq (target : String) :
    extractDomain target
      = (fun t : String =>
          if Contains ((Split t '/').headD "") ":" then
            (Split ((Split t '/').headD "") ':').headD ""
          else (Split t '/').headD "")
        (TrimPrefix (TrimPrefix target "http://") "https://") := rfl

/-- After the scheme is removed, `extractDomain` keeps the text before the
first `/` and, of it, the text before the first `:`. -/
theorem extractDomain_core (t : List Char)
    (h1 : stripLit "http://".data t = none) (h2 : stripLit "https://".data t = none) :
    extractDomain ⟨t⟩ =
      if ':' ∈ (splitL '/' t).headD [] then ⟨(splitL ':' ((splitL '/' t).headD [])).headD []⟩
      else ⟨(splitL '/' t).headD []⟩ := by
  have hd : ∀ l : List (List Char), (l.map String.mk).headD "" = ⟨l.headD []⟩ := by
    intro l; cases l <;> rfl
  rw [extractDomain_eq, TrimPrefix_of_none ⟨t⟩ "http://" h1, TrimPrefix_of_none ⟨t⟩ "https://" h2]
  have := containsL_singleton_iff ':' ((splitL '/' t).headD [])
  show (if containsL ((splitL '/' t).map String.mk |>.headD "").data [':'] = true then
      ((splitL ':' ((splitL '/' t).map String.mk |>.headD "").data).map String.mk).headD ""
    else ((splitL '/' t).map String.mk).headD "") = _
  rw [hd]
  by_cases hc : ':' ∈ (splitL '/' t).headD []
  · rw [if_pos hc, if_pos (this.2 hc), hd]
  · rw [if_neg hc, if_neg (fun h => hc (this.1 h))]

theorem extractDomain_host (h port path : List Char) (hne : h ≠ [])
    (hh : ∀ c ∈ h, c ≠ '/' ∧ c ≠ ':')
    (hport : port = [] ∨ ∃ q r, port = ':' :: q :: r ∧ ∀ c ∈ q :: r, c ≠ '/')
    (hpath : path = [] ∨ ∃ r, path = '/' :: r)
    (t : List Char) (ht : t = h ++ port ++ path) :
    extractDomain ⟨t⟩ = ⟨h⟩ := by
  have hX : AfterHost (port ++ path) := by
    rcases hport with rfl | ⟨q, r, rfl, hq⟩
    · rcases hpath with rfl | ⟨r, rfl⟩
      · exact Or.inl rfl
      · exact Or.inr (Or.inl ⟨r, rfl⟩)
    · exact Or.inr (Or.inr ⟨q, r ++ path, rfl, (hq q (List.mem_cons_self q r))⟩)
  have ht' : t = h ++ (port ++ path) := by rw [ht, List.append_assoc]
  obtain ⟨s1, s2⟩ := stripLit_scheme_none h (port ++ path) hne hh hX
  rw [← ht'] at s1 s2
  rw [extractDomain_core t s1 s2]
  have hsl : (splitL '/' t).headD [] = h ++ port := by
    rw [ht]
    apply splitL_head '/' path hpath
    intro c hc
    rcases List.mem_append.1 hc with hc | hc
    · exact (hh c hc).1
    · rcases hport with rfl | ⟨q, r, rfl, hq⟩
      · cases hc
      · rcases List.mem_cons.1 hc with rfl | hc
        · decide
        · exact hq c hc
  rw [hsl]
  rcases hport with rfl | ⟨q, r, rfl, hq⟩
  · have : ':' ∉ h ++ [] := by
      intro hc
      rw [List.append_nil] at hc
      exact (hh ':' hc).2 rfl
    rw [if_neg this, List.append_nil]
  · rw [if_pos (by simp)]
    have := splitL_head ':' (':' :: q :: r) (Or.inr ⟨q :: r, rfl⟩) h (fun c hc => (hh c hc).2)
    rw [this]

/-- A scheme in front of text that does not itself start with a scheme is
removed and changes nothing else. -/
theorem extractDomain_scheme (t : List Char)
    (s1 : stripLit "http://".data t = none) (s2 : stripLit "https://".data t = none) :
    extractDomain ⟨"http://".data ++ t⟩ = extractDomain ⟨t⟩ ∧
      extractDomain ⟨"https://".data ++ t⟩ = extractDomain ⟨t⟩ := by
  constructor
  · rw [extractDomain_eq, extractDomain_eq,
      TrimPrefix_of_some ⟨"http://".data ++ t⟩ "http://" t (stripLit_append _ _),
      TrimPrefix_of_none ⟨t⟩ "http://" s1]
  · have h0 : stripLit "http://".data ("https://".data ++ t) = none := by
      simp [stripLit]
    rw [extractDomain_eq, extractDomain_eq,
      TrimPrefix_of_none ⟨"https://".data ++ t⟩ "http://" h0,
      TrimPrefix_of_some ⟨"https://".data ++ t⟩ "https://" t (stripLit_append _ _),
      TrimPrefix_of_none ⟨t⟩ "http://" s1, TrimPrefix_of_none ⟨t⟩ "https://" s2]

/-- A target without host: the derived domain is empty. -/
theorem extractDomain_no_host (rest : List Char)
    (hrest : rest = [] ∨ (∃ r, rest = '/' :: r) ∨ ∃ r, rest = ':' :: r) :
    extractDomain ⟨rest⟩ = "" ∧ extractDomain ⟨"http://".data ++ rest⟩ = "" ∧
      extractDomain ⟨"https://".data ++ rest⟩ = "" := by
  have s1 : stripLit "http://".data rest = none := by
    rcases hrest with rfl | ⟨r, rfl⟩ | ⟨r, rfl⟩ <;> simp [stripLit]
  have s2 : stripLit "https://".data rest = none := by
    rcases hrest with rfl | ⟨r, rfl⟩ | ⟨r, rfl⟩ <;> simp [stripLit]
  have base : extractDomain ⟨rest⟩ = "" := by
    rw [extractDomain_core rest s1 s2]
    rcases hrest with rfl | ⟨r, rfl⟩ | ⟨r, rfl⟩
    · simp [splitL]
    · simp [splitL]
    · have hsp : ∃ d, (splitL '/' (':' :: r)).headD [] = ':' :: d := by
        rw [splitL]
        simp only [show (':' : Char) ≠ '/' by decide, if_false]
        cases hsp : splitL '/' r with
        | nil => exact ⟨[], rfl⟩
        | cons a b => exact ⟨a, rfl⟩
      obtain ⟨d, hd⟩ := hsp
      rw [hd, if_pos (by simp)]
      simp [splitL]
  obtain ⟨e1, e2⟩ := extractDomain_scheme rest s1 s2
  exact ⟨base, e1.trans base, e2.trans base⟩

/-- C5: `extractDomain` derives the bare host: for a scheme among none,
`http://`, `https://`, a non-empty host without `/` and `:`, an optional
`:port` (a colon and a non-empty port without `/`) and an optional path
starting with `/`, the result is the host; `https://example.com:8443/path`
and `example.com` both give `example.com`. When the text after the scheme is
empty or starts with `/` or `:`, the derived domain is empty, and
`runSubdomainEnum` returns an error without starting any process. -/
theorem extractDomain_bare_host :
    (∀ scheme h port path : String,
      scheme ∈ ["", "http://", "https://"] →
      h ≠ "" → (∀ c ∈ h.data, c ≠ '/' ∧ c ≠ ':') →
      (port = "" ∨ ∃ q : String, q ≠ "" ∧ (∀ c ∈ q.data, c ≠ '/') ∧ port = ":" ++ q) →
      (path = "" ∨ ∃ r : String, path = "/" ++ r) →
      extractDomain (scheme ++ h ++ port ++ path) = h) ∧
    extractDomain "https://example.com:8443/path" = "example.com" ∧
    extractDomain "example.com" = "example.com" ∧
    (∀ scheme rest : String,
      scheme ∈ ["", "http://", "https://"] →
      (rest = "" ∨ HasPrefix rest "/" = true ∨ HasPrefix rest ":" = true) →
      extractDomain (scheme ++ rest) = "" ∧
      ∀ (join : String → String → String) (tool : Tool) (ug : UltimateGobuster) (w : World),
        ug.config.Target = scheme ++ rest →
        runSubdomainEnum join tool ug w
          = (some ("could not extract domain from target: " ++ ug.config.Target), ug, w)) := by
  refine ⟨?_, by decide, by decide, ?_⟩
  · intro scheme h port path hscheme hne hh hport hpath
    have hport' : port.data = [] ∨
        ∃ q r, port.data = ':' :: q :: r ∧ ∀ c ∈ q :: r, c ≠ '/' := by
      rcases hport with rfl | ⟨q, hq, hqs, rfl⟩
      · exact Or.inl rfl
      · obtain ⟨a, b, hab⟩ := List.exists_cons_of_ne_nil (data_ne_nil hq)
        refine Or.inr ⟨a, b, ?_, ?_⟩
        · rw [String.data_append, hab]; rfl
        · rw [← hab]; exact hqs
    have hpath' : path.data = [] ∨ ∃ r, path.data = '/' :: r := by
      rcases hpath with rfl | ⟨r, rfl⟩
      · exact Or.inl rfl
      · exact Or.inr ⟨r.data, by rw [String.data_append]; rfl⟩
    have core := extractDomain_host h.data port.data path.data (data_ne_nil hne) hh hport' hpath'
      _ rfl
    have hX : AfterHost (port.data ++ path.data) := by
      rcases hport' with hp | ⟨q, r, hp, hq⟩
      · rw [hp]
        rcases hpath' with hq | ⟨r, hq⟩
        · rw [hq]; exact Or.inl rfl
        · rw [hq]; exact Or.inr (Or.inl ⟨r, rfl⟩)
      · rw [hp]
        exact Or.inr (Or.inr ⟨q, r ++ path.data, rfl, hq q (List.mem_cons_self q r)⟩)
    obtain ⟨s1, s2⟩ := stripLit_scheme_none h.data (port.data ++ path.data) (data_ne_nil hne) hh hX
    rw [← List.append_assoc] at s1 s2
    obtain ⟨e1, e2⟩ := extractDomain_scheme _ s1 s2
    simp only [List.mem_cons, List.mem_singleton, List.not_mem_nil, or_false] at hscheme
    rcases hscheme with rfl | rfl | rfl
    · have e : "" ++ h ++ port ++ path = ⟨h.data ++ port.data ++ path.data⟩ := by
        apply String.ext; simp [String.data_append]
      rw [e, core]
    · have e : "http://" ++ h ++ port ++ path
          = ⟨"http://".data ++ (h.data ++ port.data ++ path.data)⟩ := by
        apply String.ext; simp [String.data_append]
      rw [e, e1, core]
    · have e : "https://" ++ h ++ port ++ path
          = ⟨"https://".data ++ (h.data ++ port.data ++ path.data)⟩ := by
        apply String.ext; simp [String.data_append]
      rw [e, e2, core]
  · intro scheme rest hscheme hrest
    have hrest' : rest.data = [] ∨ (∃ r, rest.data = '/' :: r) ∨ ∃ r, rest.data = ':' :: r := by
      rcases hrest with rfl | h | h
      · exact Or.inl rfl
      · right; left
        have h' : hasPrefixL rest.data ['/'] = true := h
        cases hr : rest.data with
        | nil => rw [hr] at h'; simp [hasPrefixL] at h'
        | cons a r =>
          rw [hr] at h'
          simp only [hasPrefixL, Bool.and_eq_true, beq_iff_eq] at h'
          exact ⟨r, by rw [h'.1]⟩
      · right; right
        have h' : hasPrefixL rest.data [':'] = true := h
        cases hr : rest.data with
        | nil => rw [hr] at h'; simp [hasPrefixL] at h'
        | cons a r =>
          rw [hr] at h'
          simp only [hasPrefixL, Bool.and_eq_true, beq_iff_eq] at h'
          exact ⟨r, by rw [h'.1]⟩
    obtain ⟨b0, b1, b2⟩ := extractDomain_no_host rest.data hrest'
    have hdom : extractDomain (scheme ++ rest) = "" := by
      simp only [List.mem_cons, List.mem_singleton, List.not_mem_nil, or_false] at hscheme
      rcases hscheme with rfl | rfl | rfl
      · have e : "" ++ rest = ⟨rest.data⟩ := by apply String.ext; simp [String.data_append]
        rw [e, b0]
      · have e : "http://" ++ rest = ⟨"http://".data ++ rest.data⟩ := by
          apply String.ext; simp [String.data_append]
        rw [e, b1]
      · have e : "https://" ++ rest = ⟨"https://".data ++ rest.data⟩ := by
          apply String.ext; simp [String.data_append]
        rw [e, b2]
    refine ⟨hdom, ?_⟩
    intro join tool ug w htarget
    unfold runSubdomainEnum
    rw [htarget, hdom]
    simp

theorem extractDomain_bare_host_witness :
    extractDomain ("http://" ++ "sub.example.org" ++ ":8080" ++ "/a/b:c") = "sub.example.org" ∧
    extractDomain ("https://" ++ ":8443/path") = "" ∧
    (runSubdomainEnum (fun d n => d ++ "/" ++ n) (fun _ _ => ⟨none, fun _ => none⟩)
      ⟨⟨"https://" ++ ":8443/path", ["w"], [], 10, "", "", "out", false, false, "", "", "",
        [], [], []⟩, [], "out"⟩ ⟨[]⟩).2.2.calls = [] := by
  refine ⟨extractDomain_bare_host.1 "http://" "sub.example.org" ":8080" "/a/b:c" (by decide)
      (by decide) (by decide) (Or.inr ⟨"8080", by decide, by decide, rfl⟩)
      (Or.inr ⟨"a/b:c", rfl⟩), ?_, ?_⟩
  · exact (extractDomain_bare_host.2.2.2 "https://" ":8443/path" (by decide)
      (Or.inr (Or.inr (by decide)))).1
  · rw [(extractDomain_bare_host.2.2.2 "https://" ":8443/path" (by decide)
      (Or.inr (Or.inr (by decide)))).2 _ _ _ _ rfl]

/-! ## Scan runner and phase coordinators -/

theorem parseResultsLine_append (scanType : String) (results : List ScanResult) (text : String) :
    parseResultsLine scanType results text = results ++ parseResultsLine scanType [] text := by
  unfold parseResultsLine
  simp only []
  split
  · simp
  · split
    · split <;> simp
    · simp

theorem parseResultsLines_append (scanType : String) (lines : List String) :
    ∀ results : List ScanResult,
      parseResultsLines scanType results lines
        = results ++ parseResultsLines scanType [] lines := by
  induction lines with
  | nil => intro results; simp [parseResultsLines]
  | cons l ls ih =>
    intro results
    rw [parseResultsLines_cons, parseResultsLines_cons, ih, ih (parseResultsLine scanType [] l),
      parseResultsLine_append scanType results l, List.append_assoc]

theorem runGobusterCommand_of_err (tool : Tool) (ug : UltimateGobuster) (w : World)
    (args : List String) (outputFile scanType e : String)
    (herr : (tool w.calls.length args).err = some e) :
    runGobusterCommand tool ug w args outputFile scanType
      = (some ("gobuster command failed: " ++ e), ug, ⟨w.calls ++ [args]⟩) := by
  unfold runGobusterCommand
  simp only [herr]

theorem runGobusterCommand_of_ok (tool : Tool) (ug : UltimateGobuster) (w : World)
    (args : List String) (outputFile scanType : String)
    (herr : (tool w.calls.length args).err = none) (hout : outputFile ≠ "") :
    runGobusterCommand tool ug w args outputFile scanType
      = (none, parseResults (tool w.calls.length args).files ug outputFile scanType,
          ⟨w.calls ++ [args]⟩) := by
  unfold runGobusterCommand
  simp only [herr, hout, ne_eq, not_false_eq_true, if_true]

/-- One call of the runner: the process is recorded, and the store grows by
the findings of the invocation. -/
theorem runGobusterCommand_step (tool : Tool) (ug : UltimateGobuster) (w : World)
    (args : List String) (outputFile scanType : String) (hout : outputFile ≠ "") :
    (runGobusterCommand tool ug w args outputFile scanType).2.2.calls = w.calls ++ [args] ∧
    (runGobusterCommand tool ug w args outputFile scanType).2.1.config = ug.config ∧
    (runGobusterCommand tool ug w args outputFile scanType).2.1.outputDir = ug.outputDir ∧
    (runGobusterCommand tool ug w args outputFile scanType).2.1.results
      = ug.results ++ foundBy tool scanType w.calls.length (args, outputFile) := by
  cases herr : (tool w.calls.length args).err with
  | some e =>
    rw [runGobusterCommand_of_err tool ug w args outputFile scanType e herr]
    simp [foundBy, herr]
  | none =>
    rw [runGobusterCommand_of_ok tool ug w args outputFile scanType herr hout]
    unfold parseResults foundBy
    simp only [herr]
    cases hf : (tool w.calls.length args).files outputFile with
    | none => simp
    | some lines =>
      simp only []
      exact ⟨trivial, trivial, trivial, parseResultsLines_append scanType lines ug.results⟩

theorem wordlistLoop_cons (tool : Tool) (invocation : Nat → String → List String × String)
    (scanType : String) (i : Nat) (wordlist : String) (rest : List String)
    (ug : UltimateGobuster) (w : World) :
    wordlistLoop tool invocation scanType i (wordlist :: rest) ug w
      = wordlistLoop tool invocation scanType (i + 1) rest
          (runGobusterCommand tool ug w (invocation i wordlist).1 (invocation i wordlist).2
            scanType).2.1
          (runGobusterCommand tool ug w (invocation i wordlist).1 (invocation i wordlist).2
            scanType).2.2 := by
  rw [wordlistLoop]
  simp only []
  split <;> rename_i h <;> rw [h]

/-- The loop over the wordlists: the processes started and the store at the
end, exactly. -/
theorem wordlistLoop_spec (tool : Tool) (invocation : Nat → String → List String × String)
    (scanType : String) (hout : ∀ i wl, (invocation i wl).2 ≠ "") :
    ∀ (ws : List String) (i : Nat) (ug : UltimateGobuster) (w : World),
      (wordlistLoop tool invocation scanType i ws ug w).2.calls
        = w.calls ++ (ws.enumFrom i).map (fun p => (invocation p.1 p.2).1) ∧
      (wordlistLoop tool invocation scanType i ws ug w).1.results
        = ug.results ++ ((ws.enumFrom i).map
            (fun p => foundBy tool scanType (w.calls.length + (p.1 - i)) (invocation p.1 p.2))).flatten := by
  intro ws
  induction ws with
  | nil => intro i ug w; simp [wordlistLoop]
  | cons wl rest ih =>
    intro i ug w
    obtain ⟨s1, _, _, s4⟩ := runGobusterCommand_step tool ug w (invocation i wl).1
      (invocation i wl).2 scanType (hout i wl)
    rw [wordlistLoop_cons]
    obtain ⟨h1, h2⟩ := ih (i + 1)
      (runGobusterCommand tool ug w (invocation i wl).1 (invocation i wl).2 scanType).2.1
      (runGobusterCommand tool ug w (invocation i wl).1 (invocation i wl).2 scanType).2.2
    rw [h1, h2, s1, s4]
    constructor
    · simp [List.enumFrom_cons]
    · simp only [List.enumFrom_cons, List.map_cons, List.flatten_cons, List.append_assoc,
        Nat.sub_self, Nat.add_zero, List.length_append, List.length_singleton]
      congr 2
      congr 1
      apply List.map_congr_left
      intro p hp
      have hp1 : i + 1 ≤ p.1 := by
        obtain ⟨a, b⟩ := p
        exact (List.mem_enumFrom hp).1
      congr 1
      omega

/-- A coordinator built on the loop completes its phase. -/
theorem wordlistLoop_completes (tool : Tool) (invocation : Nat → String → List String × String)
    (scanType : String) (hout : ∀ i wl, (invocation i wl).2 ≠ "")
    (ug : UltimateGobuster) (w : World) :
    PhaseCompletes tool scanType invocation ug w
      (none, wordlistLoop tool invocation scanType 0 ug.config.Wordlists ug w) := by
  obtain ⟨h1, h2⟩ := wordlistLoop_spec tool invocation scanType hout ug.config.Wordlists 0 ug w
  refine ⟨rfl, h1, ⟨_, h2⟩, ?_⟩
  intro p hp herr lines hfiles f hf
  show f ∈ (wordlistLoop tool invocation scanType 0 ug.config.Wordlists ug w).1.results
  rw [h2]
  apply List.mem_append_right
  rw [List.mem_flatten]
  refine ⟨_, List.mem_map.2 ⟨p, hp, rfl⟩, ?_⟩
  simp only [Nat.sub_zero, foundBy, herr, hfiles]
  exact hf

theorem fmtInt_succ (i : Nat) : fmtInt (i + 1) = toString (i + 1) := rfl

theorem append_ne_empty (a : String) (c : Char) (cs : List Char) (b : String) :
    (⟨c :: cs⟩ : String) ++ a ++ b ≠ "" := by
  intro h
  have := congrArg String.data h
  simp [String.data_append] at this

/-- C3, as stated, fails: when the tool exits with an error the output file
is not parsed; the store stays empty although the file holds a finding that
a clean exit with the same file puts into the store. -/
theorem runGobusterCommand_failure_skips_parse :
    (runGobusterCommand
        (fun _ _ => ⟨some "exit status 1", fun _ => some ["/admin (Status: 200) [Size: 512]"]⟩)
        ⟨⟨"http://t", ["w"], [], 10, "", "", "out", false, false, "", "", "", [], [], []⟩,
          [], "out"⟩ ⟨[]⟩ ["dir", "-o", "out/directories_1.txt"] "out/directories_1.txt"
        "directory").2.1.results = [] ∧
    (runGobusterCommand
        (fun _ _ => ⟨none, fun _ => some ["/admin (Status: 200) [Size: 512]"]⟩)
        ⟨⟨"http://t", ["w"], [], 10, "", "", "out", false, false, "", "", "", [], [], []⟩,
          [], "out"⟩ ⟨[]⟩ ["dir", "-o", "out/directories_1.txt"] "out/directories_1.txt"
        "directory").2.1.results = [⟨"/admin", 200, 512, "directory"⟩] := by
  decide

/-- C3, amended: with a non-empty output-file path, `runGobusterCommand`
parses the output file into the store when the tool exits cleanly, and
returns no error; when the tool fails, it returns the failure and leaves the
store as it was. In both cases one process has been started. -/
theorem runGobusterCommand_parses_after_clean_exit (tool : Tool) (ug : UltimateGobuster)
    (w : World) (args : List String) (outputFile scanType : String) (hout : outputFile ≠ "") :
    ((tool w.calls.length args).err = none →
      runGobusterCommand tool ug w args outputFile scanType
        = (none, parseResults (tool w.calls.length args).files ug outputFile scanType,
            ⟨w.calls ++ [args]⟩)) ∧
    (∀ e, (tool w.calls.length args).err = some e →
      runGobusterCommand tool ug w args outputFile scanType
        = (some ("gobuster command failed: " ++ e), ug, ⟨w.calls ++ [args]⟩)) :=
  ⟨fun herr => runGobusterCommand_of_ok tool ug w args outputFile scanType herr hout,
   fun e herr => runGobusterCommand_of_err tool ug w args outputFile scanType e herr⟩

theorem runGobusterCommand_parses_after_clean_exit_witness :
    (runGobusterCommand
        (fun _ _ => ⟨none, fun _ => some ["/admin (Status: 200) [Size: 512]", "junk"]⟩)
        ⟨⟨"http://t", ["w"], [], 10, "", "", "out", false, false, "", "", "", [], [], []⟩,
          [], "out"⟩ ⟨[]⟩ ["dir"] "out/directories_1.txt" "directory").2.1.results
      = [⟨"/admin", 200, 512, "directory"⟩] := by
  rw [(runGobusterCommand_parses_after_clean_exit
    (fun _ _ => ⟨none, fun _ => some ["/admin (Status: 200) [Size: 512]", "junk"]⟩)
    ⟨⟨"http://t", ["w"], [], 10, "", "", "out", false, false, "", "", "", [], [], []⟩,
      [], "out"⟩ ⟨[]⟩ ["dir"] "out/directories_1.txt" "directory" (by decide)).1 rfl]
  decide

/-- C4: each phase coordinator (`runDirectoryEnum`, `runVHostEnum`, and
`runSubdomainEnum` when a domain can be derived) starts exactly one process
per configured wordlist, in list order, the one of index `i` with the
wordlist of index `i` and the output file `<phase>_<i+1>.txt`, and returns no
error whatever the outcomes of the processes; the findings of every process
that exits cleanly are in the store when the phase returns. -/
theorem phase_coordinators_complete (join : String → String → String) (tool : Tool)
    (ug : UltimateGobuster) (w : World)
    (hjoin : ∀ dir name, name ≠ "" → join dir name ≠ "") :
    PhaseCompletes tool "directory" (directoryInvocation join ug) ug w
      (runDirectoryEnum join tool ug w) ∧
    PhaseCompletes tool "vhost" (vhostInvocation join ug) ug w (runVHostEnum join tool ug w) ∧
    (extractDomain ug.config.Target ≠ "" →
      PhaseCompletes tool "subdomain"
        (subdomainInvocation join ug (extractDomain ug.config.Target)) ug w
        (runSubdomainEnum join tool ug w)) ∧
    (∀ (i : Nat) (wordlist : String),
      directoryInvocation join ug i wordlist
        = (["dir"] ++ buildBaseArgs ug.config ++
            ["-u", ug.config.Target, "-w", wordlist, "-o",
              join ug.outputDir ("directories_" ++ toString (i + 1) ++ ".txt")] ++
            (if ug.config.Extensions ≠ [] then ["-x", Join ug.config.Extensions ","] else []),
           join ug.outputDir ("directories_" ++ toString (i + 1) ++ ".txt")) ∧
      vhostInvocation join ug i wordlist
        = (["vhost"] ++ buildBaseArgs ug.config ++
            ["-u", ug.config.Target, "-w", wordlist, "-o",
              join ug.outputDir ("vhosts_" ++ toString (i + 1) ++ ".txt")],
           join ug.outputDir ("vhosts_" ++ toString (i + 1) ++ ".txt")) ∧
      subdomainInvocation join ug (extractDomain ug.config.Target) i wordlist
        = (["dns"] ++ buildBaseArgs ug.config ++
            ["-d", extractDomain ug.config.Target, "-w", wordlist, "-o",
              join ug.outputDir ("subdomains_" ++ toString (i + 1) ++ ".txt")],
           join ug.outputDir ("subdomains_" ++ toString (i + 1) ++ ".txt"))) := by
  refine ⟨?_, ?_, ?_, ?_⟩
  · exact wordlistLoop_completes tool (directoryInvocation join ug) "directory"
      (fun i wl => hjoin _ _ (append_ne_empty _ 'd' "irectories_".data _)) ug w
  · exact wordlistLoop_completes tool (vhostInvocation join ug) "vhost"
      (fun i wl => hjoin _ _ (append_ne_empty _ 'v' "hosts_".data _)) ug w
  · intro hdom
    have := wordlistLoop_completes tool
      (subdomainInvocation join ug (extractDomain ug.config.Target)) "subdomain"
      (fun i wl => hjoin _ _ (append_ne_empty _ 's' "ubdomains_".data _)) ug w
    unfold runSubdomainEnum
    simp only [hdom, if_false]
    exact this
  · intro i wordlist
    have l1 : ∀ l : List String, (l.length > 0) ↔ l ≠ [] := by
      intro l; cases l <;> simp
    refine ⟨?_, ?_, ?_⟩
    · unfold directoryInvocation
      simp only [fmtInt_succ, l1]
      split <;> simp
    · unfold vhostInvocation
      simp only [fmtInt_succ, List.append_assoc, List.cons_append, List.nil_append]
    · unfold subdomainInvocation
      simp only [fmtInt_succ, List.append_assoc, List.cons_append, List.nil_append]

theorem phase_coordinators_complete_witness :
    (runDirectoryEnum (fun d n => d ++ "/" ++ n)
      (fun k _ =>
        if k = 0 then ⟨some "exit status 1", fun _ => some ["/lost (Status: 200) [Size: 1]"]⟩
        else ⟨none, fun _ => some ["/login (Status: 200) [Size: 5]"]⟩)
      ⟨⟨"http://t", ["a.txt", "b.txt"], [], 0, "", "", "out", false, false, "", "", "",
        [], [], []⟩, [], "out"⟩ ⟨[]⟩).2.2.calls
      = [["dir", "-u", "http://t", "-w", "a.txt", "-o", "out/directories_1.txt"],
         ["dir", "-u", "http://t", "-w", "b.txt", "-o", "out/directories_2.txt"]] ∧
    (⟨"/login", 200, 5, "directory"⟩ : ScanResult) ∈
      (runDirectoryEnum (fun d n => d ++ "/" ++ n)
        (fun k _ =>
          if k = 0 then ⟨some "exit status 1", fun _ => some ["/lost (Status: 200) [Size: 1]"]⟩
          else ⟨none, fun _ => some ["/login (Status: 200) [Size: 5]"]⟩)
        ⟨⟨"http://t", ["a.txt", "b.txt"], [], 0, "", "", "out", false, false, "", "", "",
          [], [], []⟩, [], "out"⟩ ⟨[]⟩).2.1.results := by
  have h := (phase_coordinators_complete (fun d n => d ++ "/" ++ n)
    (fun k _ =>
      if k = 0 then ⟨some "exit status 1", fun _ => some ["/lost (Status: 200) [Size: 1]"]⟩
      else ⟨none, fun _ => some ["/login (Status: 200) [Size: 5]"]⟩)
    ⟨⟨"http://t", ["a.txt", "b.txt"], [], 0, "", "", "out", false, false, "", "", "",
      [], [], []⟩, [], "out"⟩ ⟨[]⟩
    (by
      intro dir name hname h
      have := congrArg String.data h
      simp [String.data_append] at this)).1
  refine ⟨h.2.1.trans (by decide), ?_⟩
  exact h.2.2.2 (1, "b.txt") (by decide) (by decide) ["/login (Status: 200) [Size: 5]"]
    (by decide) _ (by decide)

/-! ## Report synthesizer -/

set_option maxRecDepth 20000

theorem firstOccurrences_append_singleton (t : String) : ∀ ts : List String,
    firstOccurrences (ts ++ [t])
      = if t ∈ ts then firstOccurrences ts else firstOccurrences ts ++ [t] := by
  intro ts
  induction ts with
  | nil => simp [firstOccurrences]
  | cons a ts ih =>
    show firstOccurrences (a :: (ts ++ [t])) = _
    rw [firstOccurrences, ih]
    by_cases hts : t ∈ ts
    · simp [hts, firstOccurrences]
    · by_cases hta : t = a
      · subst hta
        simp [hts, List.filter_append, firstOccurrences]
      · simp [hts, hta, List.filter_append, firstOccurrences]

theorem mem_firstOccurrences (t : String) : ∀ ts : List String,
    t ∈ firstOccurrences ts ↔ t ∈ ts := by
  intro ts
  induction ts with
  | nil => simp [firstOccurrences]
  | cons a ts ih =>
    simp only [firstOccurrences, List.mem_cons, List.mem_filter, ih, decide_eq_true_eq]
    by_cases hta : t = a
    · simp [hta]
    · simp [hta]

theorem nodup_firstOccurrences : ∀ ts : List String, (firstOccurrences ts).Nodup := by
  intro ts
  induction ts with
  | nil => simp [firstOccurrences]
  | cons a ts ih =>
    simp only [firstOccurrences, List.nodup_cons]
    exact ⟨by simp [List.mem_filter], ih.filter _⟩

theorem mapGet_map (g : String → List ScanResult) (k : String) : ∀ keys : List String,
    mapGet (keys.map (fun t => (t, g t))) k = if k ∈ keys then g k else [] := by
  intro keys
  induction keys with
  | nil => simp [mapGet]
  | cons a keys ih =>
    unfold mapGet at ih ⊢
    by_cases hak : a = k
    · subst hak
      simp [List.find?_cons]
    · have hka : ¬ k = a := fun h => hak h.symm
      simp only [List.map_cons, List.find?_cons, hak, decide_False, List.mem_cons, hka, false_or]
      exact ih

theorem mapSet_map (g : String → List ScanResult) (k : String) (v : List ScanResult) :
    ∀ keys : List String,
    mapSet (keys.map (fun t => (t, g t))) k v
      = if k ∈ keys then keys.map (fun t => (t, if t = k then v else g t))
        else keys.map (fun t => (t, g t)) ++ [(k, v)] := by
  intro keys
  have hany : (keys.map (fun t => (t, g t))).any (fun e => decide (e.1 = k)) = true ↔ k ∈ keys := by
    simp only [List.any_eq_true, List.mem_map, decide_eq_true_eq]
    constructor
    · rintro ⟨e, ⟨t, ht, rfl⟩, he⟩
      simp only at he
      rw [← he]; exact ht
    · intro hk
      exact ⟨(k, g k), ⟨k, hk, rfl⟩, rfl⟩
  unfold mapSet
  by_cases hk : k ∈ keys
  · rw [if_pos (hany.2 hk), if_pos hk, List.map_map]
    apply List.map_congr_left
    intro t _
    by_cases htk : t = k
    · simp [htk]
    · simp [htk]
  · rw [if_neg (fun h => hk (hany.1 h)), if_neg hk]

theorem findingsOf_append_singleton (rs : List ScanResult) (r : ScanResult) (t : String) :
    findingsOf (rs ++ [r]) t
      = if r.ScanType = t then findingsOf rs t ++ [r] else findingsOf rs t := by
  unfold findingsOf
  by_cases h : r.ScanType = t
  · simp [List.filter_append, h]
  · simp [List.filter_append, h]

theorem findingsOf_eq_nil (rs : List ScanResult) (t : String)
    (h : t ∉ rs.map (fun r => r.ScanType)) : findingsOf rs t = [] := by
  unfold findingsOf
  rw [List.filter_eq_nil_iff]
  intro r hr
  simp only [decide_eq_true_eq]
  intro hrt
  exact h (List.mem_map.2 ⟨r, hr, hrt⟩)

/-- The grouping loop builds one entry per tag, in the order of first
occurrence, holding the findings of the tag in store order. -/
theorem groupByScanType_eq (rs : List ScanResult) :
    groupByScanType rs
      = (firstOccurrences (rs.map (fun r => r.ScanType))).map (fun t => (t, findingsOf rs t)) := by
  induction rs using List.reverseRecOn with
  | nil => rfl
  | append_singleton rs r ih =>
    have hstep : groupByScanType (rs ++ [r])
        = mapSet (groupByScanType rs) r.ScanType
            (mapGet (groupByScanType rs) r.ScanType ++ [r]) := by
      unfold groupByScanType
      rw [List.foldl_append]
      rfl
    rw [hstep, ih, mapGet_map, mapSet_map, List.map_append, List.map_singleton,
      firstOccurrences_append_singleton]
    have hmem : r.ScanType ∈ firstOccurrences (rs.map (fun r => r.ScanType))
        ↔ r.ScanType ∈ rs.map (fun r => r.ScanType) := mem_firstOccurrences _ _
    by_cases hk : r.ScanType ∈ rs.map (fun r => r.ScanType)
    · rw [if_pos (hmem.2 hk), if_pos (hmem.2 hk), if_pos hk]
      apply List.map_congr_left
      intro t _
      rw [findingsOf_append_singleton]
      by_cases htk : t = r.ScanType
      · subst htk; simp
      · have : ¬ r.ScanType = t := fun h => htk h.symm
        simp [htk, this]
    · rw [if_neg (fun h => hk (hmem.1 h)), if_neg (fun h => hk (hmem.1 h)), if_neg hk,
        List.map_append, List.map_singleton]
      congr 1
      · apply List.map_congr_left
        intro t ht
        rw [findingsOf_append_singleton]
        have : ¬ r.ScanType = t := by
          intro h
          rw [← h] at ht
          exact hk (hmem.1 ht)
        simp [this]
      · rw [findingsOf_append_singleton, findingsOf_eq_nil rs _ hk]
        simp

theorem mapGet_groupByScanType (rs : List ScanResult) (t : String) :
    mapGet (groupByScanType rs) t = findingsOf rs t := by
  rw [groupByScanType_eq, mapGet_map]
  by_cases h : t ∈ firstOccurrences (rs.map (fun r => r.ScanType))
  · rw [if_pos h]
  · rw [if_neg h, findingsOf_eq_nil rs t (fun h' => h ((mem_firstOccurrences _ _).2 h'))]

theorem isRangeOrder_iff (order : List String) (rs : List ScanResult) :
    IsRangeOrder order rs ↔ order.Perm (firstOccurrences (rs.map (fun r => r.ScanType))) := by
  unfold IsRangeOrder
  rw [groupByScanType_eq, List.map_map]
  have : (Prod.fst ∘ fun t => (t, findingsOf rs t)) = id := rfl
  rw [this, List.map_id]

theorem foldl_append_eq_concatAll {α : Type} (f : α → String) : ∀ (l : List α) (init : String),
    l.foldl (fun s x => s ++ f x) init = init ++ concatAll (l.map f) := by
  intro l
  induction l with
  | nil => intro init; simp [concatAll]
  | cons a l ih =>
    intro init
    rw [List.foldl_cons, ih]
    simp only [concatAll, List.map_cons, List.foldr_cons]
    rw [String.append_assoc]

theorem writeSection_eq (unicodeUpper : Char → Char) (t : String) (fs : List ScanResult) :
    writeSection unicodeUpper t fs = sectionText unicodeUpper t fs := by
  unfold writeSection sectionText
  simp only []
  rw [foldl_append_eq_concatAll (fun result : ScanResult =>
    "  " ++ result.URL ++ " (Status: " ++ fmtInt result.StatusCode ++ ", Size: " ++
      fmtInt result.Size ++ ")\n")]
  rfl

/-- The summary is the header with the total count followed by the sections
of the tags in the order in which `range` visits them. -/
theorem generateSummary_eq (unicodeUpper : Char → Char) (ug : UltimateGobuster) (now : String)
    (order : List String) :
    generateSummary unicodeUpper ug now order
      = headerText ug.config.Target now ug.results.length ++
          concatAll (order.map
            (fun t => sectionText unicodeUpper t (findingsOf ug.results t))) := by
  unfold generateSummary
  simp only []
  rw [foldl_append_eq_concatAll (fun scanType =>
    writeSection unicodeUpper scanType (mapGet (groupByScanType ug.results) scanType))]
  have hf : (fun scanType =>
      writeSection unicodeUpper scanType (mapGet (groupByScanType ug.results) scanType))
      = (fun t => sectionText unicodeUpper t (findingsOf ug.results t)) := by
    funext t
    rw [writeSection_eq, mapGet_groupByScanType]
  rw [hf]
  congr 1
  unfold headerText
  simp only [String.empty_append, String.append_assoc]
  rfl

/-- The sections of distinct tags that cover the store list every finding
once. -/
theorem sections_perm (rs : List ScanResult) : ∀ keys : List String, keys.Nodup →
    ((keys.map (findingsOf rs)).flatten).Perm (rs.filter (fun r => decide (r.ScanType ∈ keys))) := by
  intro keys
  induction keys with
  | nil => intro _; simp
  | cons k ks ih =>
    intro hnd
    obtain ⟨hk, hks⟩ := List.nodup_cons.1 hnd
    have h1 := List.filter_append_perm (fun r : ScanResult => decide (r.ScanType = k))
      (rs.filter (fun r => decide (r.ScanType ∈ k :: ks)))
    have e1 : (rs.filter (fun r => decide (r.ScanType ∈ k :: ks))).filter
        (fun r => decide (r.ScanType = k)) = findingsOf rs k := by
      unfold findingsOf
      rw [List.filter_filter]
      apply List.filter_congr
      intro r _
      by_cases h : r.ScanType = k <;> simp [h]
    have e2 : (rs.filter (fun r => decide (r.ScanType ∈ k :: ks))).filter
        (fun r => !decide (r.ScanType = k)) = rs.filter (fun r => decide (r.ScanType ∈ ks)) := by
      rw [List.filter_filter]
      apply List.filter_congr
      intro r _
      by_cases h : r.ScanType = k
      · simp [h, hk]
      · simp [h]
    rw [e1, e2] at h1
    simp only [List.map_cons, List.flatten_cons]
    exact ((ih hks).append_left _).trans h1

/-- C7: `generateSummary` writes a header whose total is the number of
findings in the store, then exactly one section per distinct scan-type tag of
the store (in the order `range` visits the map); each section states the
number of findings with its tag and lists exactly those, in store order, each
as `<url> (Status: <code>, Size: <size>)`. The sections together list every
finding of the store once, so their counts sum to the total; for the empty
store the summary is the header with a total of zero and no section. -/
theorem generateSummary_lists_every_finding (unicodeUpper : Char → Char)
    (ug : UltimateGobuster) (now : String) (order : List String)
    (horder : IsRangeOrder order ug.results) :
    generateSummary unicodeUpper ug now order
      = headerText ug.config.Target now ug.results.length ++
          concatAll (order.map
            (fun t => sectionText unicodeUpper t (findingsOf ug.results t))) ∧
    order.Nodup ∧
    (∀ t, t ∈ order ↔ ∃ r ∈ ug.results, r.ScanType = t) ∧
    ((order.map (findingsOf ug.results)).flatten).Perm ug.results ∧
    (order.map (fun t => (findingsOf ug.results t).length)).sum = ug.results.length ∧
    (ug.results = [] → order = [] ∧
      generateSummary unicodeUpper ug now order
        = "=== ULTIMATE GOBUSTER SCAN SUMMARY ===\n\n" ++ "Target: " ++ ug.config.Target ++ "\n" ++
            "Scan Date: " ++ now ++ "\n" ++ "Total Results: 0\n\n") := by
  have hperm := (isRangeOrder_iff order ug.results).1 horder
  have hnd : order.Nodup := hperm.nodup_iff.2 (nodup_firstOccurrences _)
  have hmem : ∀ t, t ∈ order ↔ ∃ r ∈ ug.results, r.ScanType = t := by
    intro t
    rw [hperm.mem_iff, mem_firstOccurrences, List.mem_map]
  have hall : ((order.map (findingsOf ug.results)).flatten).Perm ug.results := by
    have h := sections_perm ug.results order hnd
    have e : ug.results.filter (fun r => decide (r.ScanType ∈ order)) = ug.results := by
      rw [List.filter_eq_self]
      intro r hr
      simp only [decide_eq_true_eq]
      exact (hmem _).2 ⟨r, hr, rfl⟩
    rw [e] at h
    exact h
  refine ⟨generateSummary_eq unicodeUpper ug now order, hnd, hmem, hall, ?_, ?_⟩
  · have := hall.length_eq
    rw [List.length_flatten, List.map_map] at this
    exact this
  · intro hempty
    have ho : order = [] := by
      rw [hempty] at hperm
      exact List.Perm.eq_nil hperm
    refine ⟨ho, ?_⟩
    rw [generateSummary_eq, ho, hempty]
    simp only [headerText, concatAll, List.map_nil, List.foldr_nil, List.length_nil,
      String.append_empty, String.append_assoc]
    rfl

theorem generateSummary_lists_every_finding_witness :
    generateSummary id
      ⟨⟨"http://t", ["w"], [], 10, "", "", "out", false, false, "", "", "", [], [], []⟩,
        [⟨"/admin", 200, 512, "directory"⟩, ⟨"dev.t", 200, 9, "vhost"⟩,
         ⟨"/img", 301, 0, "directory"⟩], "out"⟩
      "2024-01-01 00:00:00" ["vhost", "directory"]
    = "=== ULTIMATE GOBUSTER SCAN SUMMARY ===\n\nTarget: http://t\nScan Date: 2024-01-01 00:00:00\nTotal Results: 3\n\n=== VHOST RESULTS (1) ===\n  dev.t (Status: 200, Size: 9)\n\n=== DIRECTORY RESULTS (2) ===\n  /admin (Status: 200, Size: 512)\n  /img (Status: 301, Size: 0)\n\n" :=
  ((generateSummary_lists_every_finding id
    ⟨⟨"http://t", ["w"], [], 10, "", "", "out", false, false, "", "", "", [], [], []⟩,
      [⟨"/admin", 200, 512, "directory"⟩, ⟨"dev.t", 200, 9, "vhost"⟩,
       ⟨"/img", 301, 0, "directory"⟩], "out"⟩
    "2024-01-01 00:00:00" ["vhost", "directory"]
    ((isRangeOrder_iff _ _).2 (by decide))).1).trans (by decide)

/-- C10, as stated, fails: the store below holds a `directory` finding before
a `vhost` finding, `range` may visit the map as `vhost`, `directory`, and the
summary then has its `VHOST` section first; it differs from the summary of
the same store, target and timestamp written in the other order. -/
theorem generateSummary_section_order_varies :
    firstOccurrences
      ([⟨"/admin", 200, 512, "directory"⟩, ⟨"dev.t", 200, 9, "vhost"⟩].map
        (fun r : ScanResult => r.ScanType)) = ["directory", "vhost"] ∧
    IsRangeOrder ["vhost", "directory"]
      [⟨"/admin", 200, 512, "directory"⟩, ⟨"dev.t", 200, 9, "vhost"⟩] ∧
    IsRangeOrder ["directory", "vhost"]
      [⟨"/admin", 200, 512, "directory"⟩, ⟨"dev.t", 200, 9, "vhost"⟩] ∧
    generateSummary id
      ⟨⟨"http://t", ["w"], [], 10, "", "", "out", false, false, "", "", "", [], [], []⟩,
        [⟨"/admin", 200, 512, "directory"⟩, ⟨"dev.t", 200, 9, "vhost"⟩], "out"⟩
      "2024-01-01 00:00:00" ["vhost", "directory"]
    = "=== ULTIMATE GOBUSTER SCAN SUMMARY ===\n\nTarget: http://t\nScan Date: 2024-01-01 00:00:00\nTotal Results: 2\n\n=== VHOST RESULTS (1) ===\n  dev.t (Status: 200, Size: 9)\n\n=== DIRECTORY RESULTS (1) ===\n  /admin (Status: 200, Size: 512)\n\n" ∧
    generateSummary id
      ⟨⟨"http://t", ["w"], [], 10, "", "", "out", false, false, "", "", "", [], [], []⟩,
        [⟨"/admin", 200, 512, "directory"⟩, ⟨"dev.t", 200, 9, "vhost"⟩], "out"⟩
      "2024-01-01 00:00:00" ["vhost", "directory"]
    ≠ generateSummary id
      ⟨⟨"http://t", ["w"], [], 10, "", "", "out", false, false, "", "", "", [], [], []⟩,
        [⟨"/admin", 200, 512, "directory"⟩, ⟨"dev.t", 200, 9, "vhost"⟩], "out"⟩
      "2024-01-01 00:00:00" ["directory", "vhost"] :=
  ⟨by decide, (isRangeOrder_iff _ _).2 (by decide), (isRangeOrder_iff _ _).2 (by decide),
    by decide, by decide⟩

/-- C10, amended: the sections of the summary appear in the order in which
`range` visits the keys of the grouping map. Go leaves that order open: it
is some arrangement of the distinct tags of the store, of which the order of
first occurrence is one. So two summaries of the same store, target and
timestamp are the same header followed by the same sections, each arranged
in the order of its own visit; they are the same text when the two visits
follow the same order. -/
theorem generateSummary_sections_follow_range_order (unicodeUpper : Char → Char)
    (ug : UltimateGobuster) (now : String) (order order2 : List String)
    (horder : IsRangeOrder order ug.results) (horder2 : IsRangeOrder order2 ug.results) :
    generateSummary unicodeUpper ug now order
      = headerText ug.config.Target now ug.results.length ++
          concatAll (order.map
            (fun t => sectionText unicodeUpper t (findingsOf ug.results t))) ∧
    generateSummary unicodeUpper ug now order2
      = headerText ug.config.Target now ug.results.length ++
          concatAll (order2.map
            (fun t => sectionText unicodeUpper t (findingsOf ug.results t))) ∧
    order.Perm (firstOccurrences (ug.results.map (fun r => r.ScanType))) ∧
    IsRangeOrder (firstOccurrences (ug.results.map (fun r => r.ScanType))) ug.results ∧
    (order.map (fun t => sectionText unicodeUpper t (findingsOf ug.results t))).Perm
      (order2.map (fun t => sectionText unicodeUpper t (findingsOf ug.results t))) ∧
    (order = order2 →
      generateSummary unicodeUpper ug now order = generateSummary unicodeUpper ug now order2) := by
  have h1 := (isRangeOrder_iff order ug.results).1 horder
  have h2 := (isRangeOrder_iff order2 ug.results).1 horder2
  exact ⟨generateSummary_eq unicodeUpper ug now order,
    generateSummary_eq unicodeUpper ug now order2, h1,
    (isRangeOrder_iff _ _).2 (List.Perm.refl _), (h1.trans h2.symm).map _,
    fun e => by rw [e]⟩

theorem generateSummary_sections_follow_range_order_witness :
    generateSummary id
      ⟨⟨"http://t", ["w"], [], 10, "", "", "out", false, false, "", "", "", [], [], []⟩,
        [⟨"/admin", 200, 512, "directory"⟩, ⟨"dev.t", 200, 9, "vhost"⟩], "out"⟩
      "2024-01-01 00:00:00" ["directory", "vhost"]
    = "=== ULTIMATE GOBUSTER SCAN SUMMARY ===\n\nTarget: http://t\nScan Date: 2024-01-01 00:00:00\nTotal Results: 2\n\n=== DIRECTORY RESULTS (1) ===\n  /admin (Status: 200, Size: 512)\n\n=== VHOST RESULTS (1) ===\n  dev.t (Status: 200, Size: 9)\n\n" ∧
    generateSummary id
      ⟨⟨"http://t", ["w"], [], 10, "", "", "out", false, false, "", "", "", [], [], []⟩,
        [⟨"/admin", 200, 512, "directory"⟩, ⟨"dev.t", 200, 9, "vhost"⟩], "out"⟩
      "2024-01-01 00:00:00" ["vhost", "directory"]
    = "=== ULTIMATE GOBUSTER SCAN SUMMARY ===\n\nTarget: http://t\nScan Date: 2024-01-01 00:00:00\nTotal Results: 2\n\n=== VHOST RESULTS (1) ===\n  dev.t (Status: 200, Size: 9)\n\n=== DIRECTORY RESULTS (1) ===\n  /admin (Status: 200, Size: 512)\n\n" := by
  have h := generateSummary_sections_follow_range_order id
    ⟨⟨"http://t", ["w"], [], 10, "", "", "out", false, false, "", "", "", [], [], []⟩,
      [⟨"/admin", 200, 512, "directory"⟩, ⟨"dev.t", 200, 9, "vhost"⟩], "out"⟩
    "2024-01-01 00:00:00" ["directory", "vhost"] ["vhost", "directory"]
    ((isRangeOrder_iff _ _).2 (by decide)) ((isRangeOrder_iff _ _).2 (by decide))
  exact ⟨h.1.trans (by decide), h.2.1.trans (by decide)⟩

end Gobl3d
